import Mathlib

/-!
Shallow embedding of the long-division engine of the arbitraire
arbitrary-precision library (src/div.c): Knuth's Algorithm D over
base-b digit sequences, plus the digit-array primitives it uses
(shmul, _long_sub, _long_add) and the operand-preparation / sizing
logic of arb_div_inter.

Digit sequences are lists of naturals, most-significant digit first,
exactly as in the C buffers (index 0 = most significant).  Machine
integers are modelled as Nat (the digit values are small and
non-negative); the one place where the C source computes a possibly
negative int — the three-digit refinement test — is modelled in Int.
-/

set_option maxHeartbeats 1000000

namespace Arb

/-- Value of a digit sequence (most-significant first) in base b. -/
def val (b : ℕ) : List ℕ → ℕ
  | [] => 0
  | d :: ds => d * b ^ ds.length + val b ds

/-- The window of a buffer: l digits starting at position s. -/
def win (u : List ℕ) (s l : ℕ) : List ℕ := (u.drop s).take l

/-- The canonical l-digit base-b representation of a natural number,
most-significant digit first. -/
def toDigits (b : ℕ) : ℕ → ℕ → List ℕ
  | 0, _ => []
  | l + 1, n => n / b ^ l :: toDigits b l (n % b ^ l)

/-- The arbitrary-precision fixed-point number of the library:
digit sequence (most-significant first), count of integer-part
digits (lp), total digit count (len).  The sign is not touched by
arb_div_inter and is omitted. -/
structure fxdpnt where
  number : List ℕ
  lp : ℕ
  len : ℕ
  deriving Repr, DecidableEq

/-- Modelled from the spec: integerDigitCount (rl) shape query. -/
def rl (x : fxdpnt) : ℕ := x.lp

/-- Modelled from the spec: fractionalDigitCount (rr) shape query. -/
def rr (x : fxdpnt) : ℕ := x.len - x.lp

/-- Modelled from the spec: the zero test guarding division — the
divisor's value is exactly zero iff every digit is zero. -/
def iszero (x : fxdpnt) : Bool := x.number.all (fun d => d = 0)

/-- The single error kind of the engine. -/
inductive ArbError where
  | divisionByZero
  deriving Repr, DecidableEq

/-- Core scan of shmul: multiply a digit sequence (most-significant
first) by a single digit, scanning from least significant to most
significant; value = num i * digit + carry, store value mod base,
carry value div base.  Returns (final carry, digits). -/
def shmulMSB (b digit : ℕ) : List ℕ → ℕ × List ℕ
  | [] => (0, [])
  | x :: xs =>
    let r := shmulMSB b digit xs
    let value := x * digit + r.1
    (value / b, value % b :: r.2)

/-- shmul of src/div.c: the digit-0 branch zero-fills, the digit-1
branch copies the source, otherwise the carry scan runs.  Returns
(final carry, digits); in the C source a nonzero final carry is
stored one position to the left of the destination (result with index
i-1 at i = 0), which shmulAt reproduces. -/
def shmul (num : List ℕ) (digit : ℕ) (b : ℕ) : ℕ × List ℕ :=
  if digit = 0 then (0, List.replicate num.length 0)
  else if digit = 1 then (0, num)
  else shmulMSB b digit num

/-- shmul writing into a buffer: the source occupies positions
p .. p+size-1 of dst, the digits are written back there, and a
nonzero final carry is written at position p-1 (the C write of
result with index i-1 after the loop). -/
def shmulAt (dst : List ℕ) (p size digit b : ℕ) : List ℕ :=
  let r := shmul ((dst.drop p).take size) digit b
  let out := dst.take p ++ r.2 ++ dst.drop (p + size)
  if r.1 ≠ 0 then out.set (p - 1) r.1 else out

/-- Digitwise core of _long_sub of src/div.c: subtract digit sequence
v from u (equal lengths, most-significant first), borrow propagating
from the right; val = u i - v k - borrow, add b when negative.
Returns (digits, final borrow). -/
def subDigits (b : ℕ) : List ℕ → List ℕ → List ℕ × ℕ
  | x :: xs, y :: ys =>
    let r := subDigits b xs ys
    if x < y + r.2 then ((x + b - (y + r.2)) :: r.1, 1)
    else ((x - (y + r.2)) :: r.1, 0)
  | _, _ => ([], 0)

/-- Digitwise core of _long_add of src/div.c: add digit sequence v
into u (equal lengths, most-significant first), carry propagating
from the right; val = u i + v k + carry, subtract b when at least b.
Returns (digits, final carry). -/
def addDigits (b : ℕ) : List ℕ → List ℕ → List ℕ × ℕ
  | x :: xs, y :: ys =>
    let r := addDigits b xs ys
    if x + y + r.2 ≥ b then ((x + y + r.2 - b) :: r.1, 1)
    else ((x + y + r.2) :: r.1, 0)
  | _, _ => ([], 0)

/-- _long_sub on a window of a larger buffer: subtract the v.length
digits of v from the window of u ending at index e (inclusive),
leaving every position outside the window untouched.  Returns the
updated buffer and the borrow out of the window's top. -/
def windowSub (b : ℕ) (u : List ℕ) (e : ℕ) (v : List ℕ) : List ℕ × ℕ :=
  let s := e + 1 - v.length
  let r := subDigits b ((u.drop s).take v.length) v
  (u.take s ++ r.1 ++ u.drop (e + 1), r.2)

/-- _long_add on a window of a larger buffer: add the v.length digits
of v into the window of u ending at index e (inclusive).  Returns the
updated buffer and the carry out of the window's top. -/
def windowAdd (b : ℕ) (u : List ℕ) (e : ℕ) (v : List ℕ) : List ℕ × ℕ :=
  let s := e + 1 - v.length
  let r := addDigits b ((u.drop s).take v.length) v
  (u.take s ++ r.1 ++ u.drop (e + 1), r.2)

/-- Modelled from the spec: fullMultiply (arb_mul_core), the full
multi-digit multiply-by-one-digit used by the multiply-and-subtract
step; it produces the length+1 digit product of the divisor digits
and the trial digit (most-significant carry digit first). -/
def arb_mul_core (b : ℕ) (v : List ℕ) (qg : ℕ) : List ℕ :=
  let r := shmulMSB b qg v
  r.1 :: r.2

/-- Trial guess of the quotient-digit loop: base-1 when the working
dividend's digit equals the divisor's leading digit, otherwise the
two-digit-by-one-digit estimate. -/
def trialGuess (b v0 u0 u1 : ℕ) : ℕ :=
  if v0 ≠ u0 then (u0 * b + u1) / v0 else b - 1

/-- The three-digit refinement test of the loop, in Int exactly as the
C source computes it with machine ints. -/
def overTest (b v0 v1 u0 u1 u2 qg : ℕ) : Prop :=
  (v1 : ℤ) * qg > ((u0 : ℤ) * b + u1 - (v0 : ℤ) * qg) * b + u2

instance (b v0 v1 u0 u1 u2 qg : ℕ) : Decidable (overTest b v0 v1 u0 u1 u2 qg) := by
  unfold overTest; infer_instance

/-- The refined trial digit: after the trial guess, the refinement
test decrements the guess, and on a second success decrements it once
more (at most two decrements, with no third test). -/
def refineGuess (b v0 v1 u0 u1 u2 : ℕ) : ℕ :=
  let qg := trialGuess b v0 u0 u1
  if overTest b v0 v1 u0 u1 u2 qg then
    if overTest b v0 v1 u0 u1 u2 (qg - 1) then qg - 1 - 1 else qg - 1
  else qg

/-- Steps D4 to D6 of one loop iteration: when the trial digit is
nonzero, multiply the divisor by it (arb_mul_core), subtract from the
dividend window ending at index leb+i; on a borrow, decrement the
trial digit, add the unscaled divisor back into the same window, and
on a carry out of the add-back set position 0 of the buffer to zero
(the C source's discard of the cancelling carry).  Returns the
updated buffer and the final digit. -/
def mulSubStep (b leb : ℕ) (v u : List ℕ) (i qg : ℕ) : List ℕ × ℕ :=
  if qg ≠ 0 then
    let temp := arb_mul_core b (v.take leb) qg
    let r := windowSub b u (leb + i) temp
    if r.2 = 0 then (r.1, qg)
    else
      let r2 := windowAdd b r.1 (leb + i) (v.take leb)
      (if r2.2 ≠ 0 then r2.1.set 0 0 else r2.1, qg - 1)
  else (u, qg)

/-- One iteration of the quotient-digit loop at position i: guess and
refine the trial digit from u at i, i+1, i+2 and the two leading
divisor digits, then multiply-subtract (and add back on borrow). -/
def divStep (b leb : ℕ) (v u : List ℕ) (i : ℕ) : List ℕ × ℕ :=
  let qg := refineGuess b (v.getD 0 0) (v.getD 1 0) (u.getD i 0)
    (u.getD (i + 1) 0) (u.getD (i + 2) 0)
  mulSubStep b leb v u i qg

/-- The quotient-digit loop: fuel counts the remaining iterations, i
is the window position, j the output-write index into the quotient's
digit buffer. -/
def divLoop (b leb : ℕ) (v : List ℕ) :
    ℕ → ℕ → ℕ → List ℕ → List ℕ → List ℕ × List ℕ
  | 0, _i, _j, u, qd => (u, qd)
  | fuel + 1, i, j, u, qd =>
    let s := divStep b leb v u i
    divLoop b leb v fuel (i + 1) (j + 1) s.1 (qd.set j s.2)

/-- Number of leading zero digits of a sequence (the divisor
stripping loop of arb_div_inter). -/
def leadZeros : List ℕ → ℕ
  | [] => 0
  | d :: ds => if d = 0 then leadZeros ds + 1 else 0

/-- Modelled from the spec: stripLeadingZeros (remove_leading_zeros),
the canonicalization collaborator — leading zero digits beyond the
first integer digit are removed, the fractional part (the intended
scale) is preserved. -/
def rlz : List ℕ → ℕ → List ℕ × ℕ
  | ds, 0 => (ds, 0)
  | ds, 1 => (ds, 1)
  | [], n + 2 => ([], n + 2)
  | d :: ds, n + 2 => if d = 0 then rlz ds (n + 1) else (d :: ds, n + 2)

/-- Modelled from the spec: stripLeadingZeros applied to a number. -/
def remove_leading_zeros (q : fxdpnt) : fxdpnt :=
  let r := rlz q.number q.lp
  ⟨r.1, r.2, q.len - (q.lp - r.2)⟩

/-- Normalization step of arb_div_inter: norm = b div (leading divisor
digit + 1); when norm is not 1 both the working dividend (its su
leading positions) and the working divisor (its sv leading positions)
are multiplied by norm with shmul, in place. -/
def normalizeStep (b su sv : ℕ) (u v : List ℕ) : List ℕ × List ℕ :=
  let norm := b / (v.headD 0 + 1)
  if norm ≠ 1 then (shmulAt u 0 su norm b, shmulAt v 0 sv norm b)
  else (u, v)

/-- The guard-slot count of arb_div_inter: offset = scale - uscal
when uscal = rr num - rr den falls short of the requested scale
(computed with the signed comparison of the C source). -/
def divOffset (num den : fxdpnt) (scale : ℕ) : ℕ :=
  if (rr num : ℤ) - (rr den : ℤ) < (scale : ℤ) then
    ((scale : ℤ) - ((rr num : ℤ) - (rr den : ℤ))).toNat
  else 0

/-- The number of quotient digits of arb_div_inter: initialized to
scale+1 and reassigned to lea-leb+scale+1 only when the divisor is
not wider than lea. -/
def divQuodig (lea leb scale : ℕ) : ℕ :=
  if leb > lea + scale then scale + 1
  else if leb > lea then scale + 1 else lea - leb + scale + 1

/-- The size argument lea+uscal+offset+1 of the dividend shmul call
of arb_div_inter, computed with the mixed signed/unsigned arithmetic
of the C source. -/
def divSu (num den : fxdpnt) (scale : ℕ) : ℕ :=
  (((rl num + rr den : ℕ) : ℤ) + ((rr num : ℤ) - (rr den : ℤ))
    + (divOffset num den scale : ℤ) + 1).toNat

/-- arb_div_inter of src/div.c up to (but not including) the final
remove_leading_zeros: operand preparation, sizing, the zero-quotient
early-out, normalization and the quotient-digit loop.  The zero
divisor case is modelled from the spec as a reportable DivisionByZero
error (the C source instead calls arb_error, which terminates the
process — its own TODO comment says this exit is to be removed). -/
def arb_div_core (num den : fxdpnt) (b : ℕ) (scale : ℕ) : Except ArbError fxdpnt :=
  if iszero den then Except.error ArbError.divisionByZero
  else
    let lea := rl num + rr den
    let offset : ℕ := divOffset num den scale
    let u : List ℕ := 0 :: (num.number ++ List.replicate (offset + 2) 0)
    let dropn := leadZeros den.number
    let v : List ℕ := den.number.drop dropn ++ List.replicate (offset + 3) 0
    let leb := den.len - dropn
    let quodig := divQuodig lea leb scale
    let qlp := quodig - scale
    let qlen := qlp + scale
    if leb > lea + scale then
      Except.ok ⟨List.replicate qlen 0, qlp, qlen⟩
    else
      let su : ℕ := divSu num den scale
      let p := normalizeStep b su leb u v
      let j0 := if leb > lea then leb - lea else 0
      let r := divLoop b leb p.2 (lea + scale - leb + 1) 0 j0 p.1
        (List.replicate qlen 0)
      Except.ok ⟨r.2, qlp, qlen⟩

/-- arb_div_inter of src/div.c: the core followed by
remove_leading_zeros on the quotient. -/
def arb_div_inter (num den : fxdpnt) (b : ℕ) (scale : ℕ) : Except ArbError fxdpnt :=
  (arb_div_core num den b scale).map remove_leading_zeros

/-! ### Value and window lemmas -/

theorem val_cons (b d : ℕ) (ds : List ℕ) :
    val b (d :: ds) = d * b ^ ds.length + val b ds := rfl

theorem val_append (b : ℕ) (xs ys : List ℕ) :
    val b (xs ++ ys) = val b xs * b ^ ys.length + val b ys := by
  induction xs with
  | nil => simp [val]
  | cons x xs ih =>
    simp only [List.cons_append, val_cons, ih, List.length_append, pow_add]
    ring

theorem val_replicate_zero (b n : ℕ) : val b (List.replicate n 0) = 0 := by
  induction n with
  | zero => rfl
  | succ n ih => simp [List.replicate_succ, val_cons, ih]

theorem val_lt (b : ℕ) (xs : List ℕ) (h : ∀ d ∈ xs, d < b) :
    val b xs < b ^ xs.length := by
  induction xs with
  | nil => simp [val]
  | cons x xs ih =>
    have hx : x < b := h x (by simp)
    have hxs : val b xs < b ^ xs.length := ih fun d hd => h d (by simp [hd])
    have h1 : x * b ^ xs.length + val b xs < (x + 1) * b ^ xs.length := by
      nlinarith
    have h2 : (x + 1) * b ^ xs.length ≤ b * b ^ xs.length :=
      Nat.mul_le_mul_right _ hx
    calc val b (x :: xs) = x * b ^ xs.length + val b xs := rfl
      _ < (x + 1) * b ^ xs.length := h1
      _ ≤ b * b ^ xs.length := h2
      _ = b ^ (x :: xs).length := by rw [List.length_cons, pow_succ]; ring

theorem val_eq_zero_of_all_zero (b : ℕ) (xs : List ℕ)
    (h : ∀ d ∈ xs, d = 0) : val b xs = 0 := by
  induction xs with
  | nil => rfl
  | cons x xs ih =>
    have : x = 0 := h x (by simp)
    simp [val_cons, this, ih fun d hd => h d (by simp [hd])]

theorem all_zero_of_val_eq_zero (b : ℕ) (hb : 1 ≤ b) (xs : List ℕ)
    (h : val b xs = 0) : ∀ d ∈ xs, d = 0 := by
  induction xs with
  | nil => simp
  | cons x xs ih =>
    rw [val_cons] at h
    have hx : x * b ^ xs.length = 0 := by omega
    have hb' : 0 < b ^ xs.length := Nat.pos_pow_of_pos _ hb
    intro d hd
    rcases List.mem_cons.mp hd with rfl | hd'
    · exact by nlinarith
    · exact ih (by omega) d hd'

theorem toDigits_length (b l n : ℕ) : (toDigits b l n).length = l := by
  induction l generalizing n with
  | zero => rfl
  | succ l ih => simp [toDigits, ih]

theorem val_toDigits (b : ℕ) (hb : 1 ≤ b) (l n : ℕ) (h : n < b ^ l) :
    val b (toDigits b l n) = n := by
  induction l generalizing n with
  | zero => simp at h; simp [toDigits, val, h]
  | succ l ih =>
    have hpow : 0 < b ^ l := Nat.pos_pow_of_pos _ hb
    have hmod : n % b ^ l < b ^ l := Nat.mod_lt _ hpow
    simp only [toDigits, val_cons, toDigits_length, ih _ hmod]
    conv_lhs => rw [Nat.mul_comm]
    exact Nat.div_add_mod n (b ^ l)

theorem toDigits_lt (b l n : ℕ) (hb : 1 ≤ b) (h : n < b ^ l) :
    ∀ d ∈ toDigits b l n, d < b := by
  induction l generalizing n with
  | zero => simp [toDigits]
  | succ l ih =>
    have hpow : 0 < b ^ l := Nat.pos_pow_of_pos _ hb
    intro d hd
    rcases List.mem_cons.mp hd with rfl | hd'
    · exact Nat.div_lt_of_lt_mul (by rw [← pow_succ]; exact h)
    · exact ih _ (Nat.mod_lt _ hpow) d hd'

theorem toDigits_eq_cons (b l q r : ℕ) (hb : 1 ≤ b) (hr : r < b ^ l) :
    toDigits b (l + 1) (q * b ^ l + r) = q :: toDigits b l r := by
  have hpow : 0 < b ^ l := Nat.pos_pow_of_pos _ hb
  have h1 : (q * b ^ l + r) / b ^ l = q := by
    rw [Nat.mul_comm, Nat.mul_add_div hpow, Nat.div_eq_of_lt hr, Nat.add_zero]
  have h2 : (q * b ^ l + r) % b ^ l = r := by
    rw [Nat.mul_comm, Nat.mul_add_mod, Nat.mod_eq_of_lt hr]
  simp only [toDigits, h1, h2]

theorem win_length (u : List ℕ) (s l : ℕ) (h : s + l ≤ u.length) :
    (win u s l).length = l := by
  simp [win, List.length_take, List.length_drop]
  omega

theorem win_zero (u : List ℕ) (l : ℕ) : win u 0 l = u.take l := by
  simp [win]

theorem win_split (u : List ℕ) (s n m : ℕ) :
    win u s (n + m) = win u s n ++ win u (s + n) m := by
  simp only [win]
  rw [List.take_add, List.drop_drop]
  try rw [Nat.add_comm n s]

theorem win_cons (u : List ℕ) (s l : ℕ) (h : s < u.length) :
    win u s (l + 1) = u.getD s 0 :: win u (s + 1) l := by
  simp only [win]
  rw [List.drop_eq_getElem_cons h, List.take_succ_cons, List.getD_eq_getElem u 0 h]

/-! ### shmul lemmas -/

theorem shmulMSB_length (b d : ℕ) (xs : List ℕ) :
    (shmulMSB b d xs).2.length = xs.length := by
  induction xs with
  | nil => rfl
  | cons x xs ih => simp [shmulMSB, ih]

theorem shmulMSB_val (b d : ℕ) (xs : List ℕ) :
    val b (shmulMSB b d xs).2 + (shmulMSB b d xs).1 * b ^ xs.length
      = d * val b xs := by
  induction xs with
  | nil => simp [shmulMSB, val]
  | cons x xs ih =>
    simp only [shmulMSB, val_cons, shmulMSB_length, List.length_cons, pow_succ]
    set c := (shmulMSB b d xs).1 with hc
    set B := b ^ xs.length with hB
    calc (x * d + c) % b * B + val b (shmulMSB b d xs).2 + (x * d + c) / b * (B * b)
        = ((x * d + c) % b + (x * d + c) / b * b) * B + val b (shmulMSB b d xs).2 := by
          ring
      _ = (x * d + c) * B + val b (shmulMSB b d xs).2 := by rw [Nat.mod_add_div']
      _ = x * d * B + (val b (shmulMSB b d xs).2 + c * B) := by ring
      _ = x * d * B + d * val b xs := by rw [ih]
      _ = d * (x * B + val b xs) := by ring

theorem shmulMSB_carry_lt (b d : ℕ) (hd : 1 ≤ d) (xs : List ℕ)
    (h : ∀ x ∈ xs, x < b) : (shmulMSB b d xs).1 < d := by
  induction xs with
  | nil => simpa [shmulMSB]
  | cons x xs ih =>
    have hx : x < b := h x (by simp)
    have hb : 0 < b := lt_of_le_of_lt (Nat.zero_le x) hx
    have hc : (shmulMSB b d xs).1 < d := ih fun y hy => h y (by simp [hy])
    simp only [shmulMSB]
    exact Nat.div_lt_of_lt_mul (by nlinarith)

theorem shmulMSB_digits_lt (b d : ℕ) (hb : 1 ≤ b) (xs : List ℕ) :
    ∀ y ∈ (shmulMSB b d xs).2, y < b := by
  induction xs with
  | nil => simp [shmulMSB]
  | cons x xs ih =>
    intro y hy
    simp only [shmulMSB, List.mem_cons] at hy
    rcases hy with rfl | hy'
    · exact Nat.mod_lt _ hb
    · exact ih y hy'

/-! ### Ranged subtraction and addition lemmas -/

theorem subDigits_length (b : ℕ) (xs ys : List ℕ) (h : xs.length = ys.length) :
    (subDigits b xs ys).1.length = xs.length := by
  induction xs generalizing ys with
  | nil => simp [subDigits]
  | cons x xs ih =>
    cases ys with
    | nil => simp at h
    | cons y ys =>
      simp only [List.length_cons, Nat.succ_inj] at h
      simp only [subDigits]
      split <;> simp [ih ys h]

theorem subDigits_borrow_le (b : ℕ) (xs ys : List ℕ) :
    (subDigits b xs ys).2 ≤ 1 := by
  cases xs with
  | nil => simp [subDigits]
  | cons x xs =>
    cases ys with
    | nil => simp [subDigits]
    | cons y ys => simp only [subDigits]; split <;> simp

theorem subDigits_val (b : ℕ) (xs ys : List ℕ) (hlen : xs.length = ys.length)
    (hys : ∀ y ∈ ys, y < b) :
    val b (subDigits b xs ys).1 + val b ys
      = val b xs + (subDigits b xs ys).2 * b ^ xs.length := by
  induction xs generalizing ys with
  | nil =>
    cases ys with
    | nil => simp [subDigits, val]
    | cons y ys => simp at hlen
  | cons x xs ih =>
    cases ys with
    | nil => simp at hlen
    | cons y ys =>
      simp only [List.length_cons, Nat.succ_inj] at hlen
      have hy : y < b := hys y (by simp)
      have hys' : ∀ z ∈ ys, z < b := fun z hz => hys z (by simp [hz])
      have ihe := ih ys hlen hys'
      have hbor := subDigits_borrow_le b xs ys
      set r := subDigits b xs ys with hr
      set B := b ^ xs.length with hB
      simp only [subDigits, ← hr]
      split
      · next hlt =>
        have hge : y + r.2 ≤ x + b := by omega
        simp only [val_cons, subDigits_length b xs ys hlen, List.length_cons,
          pow_succ, ← hlen, ← hB]
        zify [hge]
        linarith [ihe]
      · next hge =>
        have hge' : y + r.2 ≤ x := by omega
        simp only [val_cons, subDigits_length b xs ys hlen, List.length_cons,
          pow_succ, ← hlen, ← hB]
        zify [hge']
        linarith [ihe]

theorem subDigits_digits_lt (b : ℕ) (xs ys : List ℕ)
    (hxs : ∀ x ∈ xs, x < b) :
    ∀ z ∈ (subDigits b xs ys).1, z < b := by
  induction xs generalizing ys with
  | nil => simp [subDigits]
  | cons x xs ih =>
    cases ys with
    | nil => simp [subDigits]
    | cons y ys =>
      have hx : x < b := hxs x (by simp)
      have hxs' : ∀ z ∈ xs, z < b := fun z hz => hxs z (by simp [hz])
      intro z hz
      simp only [subDigits] at hz
      split at hz <;> rename_i hcase <;> simp only [List.mem_cons] at hz <;>
        rcases hz with rfl | hz'
      · omega
      · exact ih ys hxs' z hz'
      · omega
      · exact ih ys hxs' z hz'

theorem addDigits_length (b : ℕ) (xs ys : List ℕ) (h : xs.length = ys.length) :
    (addDigits b xs ys).1.length = xs.length := by
  induction xs generalizing ys with
  | nil => simp [addDigits]
  | cons x xs ih =>
    cases ys with
    | nil => simp at h
    | cons y ys =>
      simp only [List.length_cons, Nat.succ_inj] at h
      simp only [addDigits]
      split <;> simp [ih ys h]

theorem addDigits_carry_le (b : ℕ) (xs ys : List ℕ) :
    (addDigits b xs ys).2 ≤ 1 := by
  cases xs with
  | nil => simp [addDigits]
  | cons x xs =>
    cases ys with
    | nil => simp [addDigits]
    | cons y ys => simp only [addDigits]; split <;> simp

theorem addDigits_val (b : ℕ) (xs ys : List ℕ) (hlen : xs.length = ys.length) :
    val b (addDigits b xs ys).1 + (addDigits b xs ys).2 * b ^ xs.length
      = val b xs + val b ys := by
  induction xs generalizing ys with
  | nil =>
    cases ys with
    | nil => simp [addDigits, val]
    | cons y ys => simp at hlen
  | cons x xs ih =>
    cases ys with
    | nil => simp at hlen
    | cons y ys =>
      simp only [List.length_cons, Nat.succ_inj] at hlen
      have ihe := ih ys hlen
      set r := addDigits b xs ys with hr
      simp only [addDigits, ← hr]
      set B := b ^ xs.length with hB
      split
      · next hbge =>
        simp only [val_cons, addDigits_length b xs ys hlen, List.length_cons,
          pow_succ, ← hlen, ← hB]
        zify [hbge]
        linarith [ihe]
      · next hblt =>
        simp only [val_cons, addDigits_length b xs ys hlen, List.length_cons,
          pow_succ, ← hlen, ← hB]
        linarith [ihe]

theorem addDigits_digits_lt (b : ℕ) (xs ys : List ℕ)
    (hxs : ∀ x ∈ xs, x < b) (hys : ∀ y ∈ ys, y < b) :
    ∀ z ∈ (addDigits b xs ys).1, z < b := by
  induction xs generalizing ys with
  | nil => simp [addDigits]
  | cons x xs ih =>
    cases ys with
    | nil => simp [addDigits]
    | cons y ys =>
      have hx : x < b := hxs x (by simp)
      have hy : y < b := hys y (by simp)
      have hxs' : ∀ z ∈ xs, z < b := fun z hz => hxs z (by simp [hz])
      have hys' : ∀ z ∈ ys, z < b := fun z hz => hys z (by simp [hz])
      have hc := addDigits_carry_le b xs ys
      intro z hz
      simp only [addDigits] at hz
      split at hz <;> rename_i hcase <;> simp only [List.mem_cons] at hz <;>
        rcases hz with rfl | hz'
      · omega
      · exact ih ys hxs' hys' z hz'
      · omega
      · exact ih ys hxs' hys' z hz'

/-- The ranged subtract followed by the ranged add of the same digit
sequence restores every digit and returns a carry equal to the
borrow. -/
theorem addDigits_subDigits (b : ℕ) (xs ys : List ℕ)
    (hlen : xs.length = ys.length) (hxs : ∀ x ∈ xs, x < b)
    (hys : ∀ y ∈ ys, y < b) :
    addDigits b (subDigits b xs ys).1 ys = (xs, (subDigits b xs ys).2) := by
  induction xs generalizing ys with
  | nil =>
    cases ys with
    | nil => simp [subDigits, addDigits]
    | cons y ys => simp at hlen
  | cons x xs ih =>
    cases ys with
    | nil => simp at hlen
    | cons y ys =>
      simp only [List.length_cons, Nat.succ_inj] at hlen
      have hx : x < b := hxs x (by simp)
      have hy : y < b := hys y (by simp)
      have hxs' : ∀ z ∈ xs, z < b := fun z hz => hxs z (by simp [hz])
      have hys' : ∀ z ∈ ys, z < b := fun z hz => hys z (by simp [hz])
      have ihe := ih ys hlen hxs' hys'
      have hbor := subDigits_borrow_le b xs ys
      set r := subDigits b xs ys with hr
      simp only [subDigits, ← hr]
      split
      · next hlt =>
        simp only [addDigits, ihe]
        have hc : x + b - (y + r.2) + y + r.2 ≥ b := by omega
        rw [if_pos hc]
        have : x + b - (y + r.2) + y + r.2 - b = x := by omega
        rw [this]
      · next hge =>
        simp only [addDigits, ihe]
        have hc : ¬ (x - (y + r.2) + y + r.2 ≥ b) := by omega
        rw [if_neg hc]
        have : x - (y + r.2) + y + r.2 = x := by omega
        rw [this]

theorem subDigits_borrow_iff (b : ℕ) (xs ys : List ℕ)
    (hlen : xs.length = ys.length) (hxs : ∀ x ∈ xs, x < b)
    (hys : ∀ y ∈ ys, y < b) :
    (subDigits b xs ys).2 = 1 ↔ val b xs < val b ys := by
  have hval := subDigits_val b xs ys hlen hys
  have hbor := subDigits_borrow_le b xs ys
  have hres : val b (subDigits b xs ys).1 < b ^ xs.length := by
    have := val_lt b (subDigits b xs ys).1 (subDigits_digits_lt b xs ys hxs)
    rwa [subDigits_length b xs ys hlen] at this
  interval_cases h : (subDigits b xs ys).2 <;> simp_all <;> omega

theorem addDigits_carry_iff (b : ℕ) (xs ys : List ℕ)
    (hlen : xs.length = ys.length) (hxs : ∀ x ∈ xs, x < b)
    (hys : ∀ y ∈ ys, y < b) :
    (addDigits b xs ys).2 = 1 ↔ b ^ xs.length ≤ val b xs + val b ys := by
  have hval := addDigits_val b xs ys hlen
  have hcar := addDigits_carry_le b xs ys
  have hres : val b (addDigits b xs ys).1 < b ^ xs.length := by
    have := val_lt b (addDigits b xs ys).1 (addDigits_digits_lt b xs ys hxs hys)
    rwa [addDigits_length b xs ys hlen] at this
  interval_cases h : (addDigits b xs ys).2 <;> simp_all <;> omega

/-! ### Window surgery lemmas -/

theorem take_append_left (a c : List ℕ) (s : ℕ) (h : a.length = s) :
    (a ++ c).take s = a := by
  subst h; exact List.take_left a c

theorem drop_append_left (a c : List ℕ) (s : ℕ) (h : a.length = s) :
    (a ++ c).drop s = c := by
  subst h; exact List.drop_left a c

theorem getD_eq_of_drop_eq (xs ys : List ℕ) (k m : ℕ)
    (h : xs.drop k = ys.drop k) (hm : k ≤ m) :
    xs.getD m 0 = ys.getD m 0 := by
  have h1 : (xs.drop k)[m - k]? = xs[m]? := by
    rw [List.getElem?_drop]; congr 1; omega
  have h2 : (ys.drop k)[m - k]? = ys[m]? := by
    rw [List.getElem?_drop]; congr 1; omega
  simp only [List.getD_eq_getElem?_getD]
  rw [← h1, ← h2, h]

theorem windowSub_length (b : ℕ) (u : List ℕ) (e : ℕ) (v : List ℕ)
    (hv : v.length ≤ e + 1) (he : e < u.length) :
    (windowSub b u e v).1.length = u.length := by
  simp only [windowSub, List.length_append, List.length_take, List.length_drop]
  rw [subDigits_length]
  · simp [List.length_take, List.length_drop]; omega
  · simp [List.length_take, List.length_drop]; omega

theorem windowSub_take (b : ℕ) (u : List ℕ) (e : ℕ) (v : List ℕ)
    (hv : v.length ≤ e + 1) (he : e < u.length) :
    (windowSub b u e v).1.take (e + 1 - v.length)
      = u.take (e + 1 - v.length) := by
  simp only [windowSub, List.append_assoc]
  exact take_append_left _ _ _ (by simp [List.length_take]; omega)

theorem windowSub_drop (b : ℕ) (u : List ℕ) (e : ℕ) (v : List ℕ)
    (hv : v.length ≤ e + 1) (he : e < u.length) :
    (windowSub b u e v).1.drop (e + 1) = u.drop (e + 1) := by
  simp only [windowSub]
  exact drop_append_left _ _ _ (by
    simp only [List.length_append, List.length_take, List.length_drop]
    rw [subDigits_length]
    · simp [List.length_take, List.length_drop]; omega
    · simp [List.length_take, List.length_drop]; omega)

theorem windowSub_win (b : ℕ) (u : List ℕ) (e : ℕ) (v : List ℕ)
    (hv : v.length ≤ e + 1) (he : e < u.length) :
    win (windowSub b u e v).1 (e + 1 - v.length) v.length
      = (subDigits b (win u (e + 1 - v.length) v.length) v).1 := by
  simp only [windowSub, win, List.append_assoc]
  rw [drop_append_left _ _ _ (by simp [List.length_take]; omega)]
  exact take_append_left _ _ _ (by
    rw [subDigits_length]
    · simp [List.length_take, List.length_drop]; omega
    · simp [List.length_take, List.length_drop]; omega)

theorem windowAdd_length (b : ℕ) (u : List ℕ) (e : ℕ) (v : List ℕ)
    (hv : v.length ≤ e + 1) (he : e < u.length) :
    (windowAdd b u e v).1.length = u.length := by
  simp only [windowAdd, List.length_append, List.length_take, List.length_drop]
  rw [addDigits_length]
  · simp [List.length_take, List.length_drop]; omega
  · simp [List.length_take, List.length_drop]; omega

theorem windowAdd_take (b : ℕ) (u : List ℕ) (e : ℕ) (v : List ℕ)
    (hv : v.length ≤ e + 1) (he : e < u.length) :
    (windowAdd b u e v).1.take (e + 1 - v.length)
      = u.take (e + 1 - v.length) := by
  simp only [windowAdd, List.append_assoc]
  exact take_append_left _ _ _ (by simp [List.length_take]; omega)

theorem windowAdd_drop (b : ℕ) (u : List ℕ) (e : ℕ) (v : List ℕ)
    (hv : v.length ≤ e + 1) (he : e < u.length) :
    (windowAdd b u e v).1.drop (e + 1) = u.drop (e + 1) := by
  simp only [windowAdd]
  exact drop_append_left _ _ _ (by
    simp only [List.length_append, List.length_take, List.length_drop]
    rw [addDigits_length]
    · simp [List.length_take, List.length_drop]; omega
    · simp [List.length_take, List.length_drop]; omega)

theorem windowAdd_win (b : ℕ) (u : List ℕ) (e : ℕ) (v : List ℕ)
    (hv : v.length ≤ e + 1) (he : e < u.length) :
    win (windowAdd b u e v).1 (e + 1 - v.length) v.length
      = (addDigits b (win u (e + 1 - v.length) v.length) v).1 := by
  simp only [windowAdd, win, List.append_assoc]
  rw [drop_append_left _ _ _ (by simp [List.length_take]; omega)]
  exact take_append_left _ _ _ (by
    rw [addDigits_length]
    · simp [List.length_take, List.length_drop]; omega
    · simp [List.length_take, List.length_drop]; omega)

/-! ### Knuth trial-digit lemmas (step D3 of Algorithm D)

Throughout, P stands for the weight of the digit position just below
the three leading dividend-window digits (in the engine, a power of
the base): the divisor decomposes as V = (v0*b + v1)*P + Vl and the
window as U = ((u0*b + u1)*b + u2)*P + Ul with Ul, Vl < P. -/

theorem overTest_imp_lt (b u0 u1 u2 v0 v1 U V Ul P g : ℕ)
    (hU : U = ((u0 * b + u1) * b + u2) * P + Ul) (hUl : Ul < P)
    (hV : (v0 * b + v1) * P ≤ V)
    (ht : overTest b v0 v1 u0 u1 u2 g) :
    U < g * V := by
  have hkeyZ : ((u0 * b + u1) * b + u2 : ℤ) < g * (v0 * b + v1) := by
    unfold overTest at ht
    nlinarith [ht]
  have hkey : (u0 * b + u1) * b + u2 + 1 ≤ g * (v0 * b + v1) := by
    exact_mod_cast hkeyZ
  have h2 : U < ((u0 * b + u1) * b + u2 + 1) * P := by
    rw [hU]; nlinarith
  have h3 : ((u0 * b + u1) * b + u2 + 1) * P ≤ g * (v0 * b + v1) * P :=
    Nat.mul_le_mul hkey (Nat.le_refl P)
  have h4 : g * ((v0 * b + v1) * P) ≤ g * V := Nat.mul_le_mul (Nat.le_refl g) hV
  calc U < ((u0 * b + u1) * b + u2 + 1) * P := h2
    _ ≤ g * (v0 * b + v1) * P := h3
    _ = g * ((v0 * b + v1) * P) := by ring
    _ ≤ g * V := h4

theorem overTest_false_le (b u0 u1 u2 v0 v1 U V Vl P g : ℕ)
    (hb : 2 ≤ b) (hv0 : 1 ≤ v0) (hg : g < b) (hP : 0 < P)
    (hU : ((u0 * b + u1) * b + u2) * P ≤ U)
    (hV : V = (v0 * b + v1) * P + Vl) (hVl : Vl < P)
    (ht : ¬ overTest b v0 v1 u0 u1 u2 g) :
    g ≤ U / V + 1 := by
  have hVge : b * P ≤ V := by
    have h1 : b ≤ v0 * b + v1 := by nlinarith
    have := Nat.mul_le_mul h1 (Nat.le_refl P)
    omega
  have hVpos : 0 < V := by
    have : 0 < b * P := by positivity
    omega
  have hkeyZ : (g : ℤ) * (v0 * b + v1) ≤ (u0 * b + u1) * b + u2 := by
    unfold overTest at ht
    push_neg at ht
    nlinarith [ht]
  have hkey : g * (v0 * b + v1) ≤ (u0 * b + u1) * b + u2 := by
    exact_mod_cast hkeyZ
  have h1 : g * V = g * (v0 * b + v1) * P + g * Vl := by rw [hV]; ring
  have h2 : g * (v0 * b + v1) * P ≤ ((u0 * b + u1) * b + u2) * P :=
    Nat.mul_le_mul hkey (Nat.le_refl P)
  have h4 : g * Vl < b * P := by
    have h5 : g * Vl ≤ (b - 1) * (P - 1) :=
      Nat.mul_le_mul (by omega) (by omega)
    have h6 : (b - 1) * (P - 1) < b * P := by
      zify [show 1 ≤ b by omega, show 1 ≤ P by omega]
      nlinarith
    omega
  have h6 : g * V < U + V := by omega
  have h7 : U < (U / V + 1) * V := by
    have hdm := Nat.div_add_mod U V
    have hml := Nat.mod_lt U hVpos
    nlinarith [hdm, hml]
  have h8 : g * V < (U / V + 2) * V := by nlinarith
  have h9 : g < U / V + 2 :=
    lt_of_mul_lt_mul_right h8 (Nat.zero_le V)
  omega

theorem trialGuess_ge (b u0 u1 u2 v0 v1 U V Ul P : ℕ)
    (hb : 2 ≤ b) (hu2 : u2 < b) (hv0 : 1 ≤ v0) (hP : 0 < P)
    (hU : U = ((u0 * b + u1) * b + u2) * P + Ul) (hUl : Ul < P)
    (hV : v0 * (b * P) ≤ V)
    (hUbV : U < b * V) :
    U / V ≤ trialGuess b v0 u0 u1 := by
  have hVpos : 0 < V := by
    have : 0 < v0 * (b * P) := by positivity
    omega
  have hqb : U / V < b := by
    rw [Nat.div_lt_iff_lt_mul hVpos]; nlinarith
  unfold trialGuess
  split
  · next hne =>
    set q := U / V with hq
    have hqV : q * V ≤ U := Nat.div_mul_le_self U V
    have hUup : U < (u0 * b + u1 + 1) * (b * P) := by
      rw [hU]; nlinarith
    have hchain : q * v0 * (b * P) < (u0 * b + u1 + 1) * (b * P) := by
      calc q * v0 * (b * P) = q * (v0 * (b * P)) := by ring
        _ ≤ q * V := Nat.mul_le_mul (Nat.le_refl q) hV
        _ ≤ U := hqV
        _ < (u0 * b + u1 + 1) * (b * P) := hUup
    have hqv0 : q * v0 < u0 * b + u1 + 1 :=
      lt_of_mul_lt_mul_right hchain (Nat.zero_le _)
    rw [Nat.le_div_iff_mul_le (by omega : 0 < v0)]
    omega
  · omega

theorem trialGuess_le_b (b u0 u1 u2 v0 v1 U V Ul Vl P : ℕ)
    (hb : 2 ≤ b) (hu1 : u1 < b) (hv0 : 1 ≤ v0) (hv1 : v1 < b) (hP : 0 < P)
    (hU : U = ((u0 * b + u1) * b + u2) * P + Ul)
    (hV : V = (v0 * b + v1) * P + Vl) (hVl : Vl < P)
    (hUbV : U < b * V) :
    trialGuess b v0 u0 u1 ≤ b - 1 := by
  have hu0v0 : u0 ≤ v0 := by
    by_contra hcon
    push_neg at hcon
    have h1 : (v0 + 1) * (b * (b * P)) ≤ u0 * (b * (b * P)) :=
      Nat.mul_le_mul (by omega) (Nat.le_refl _)
    have h2 : u0 * (b * (b * P)) ≤ U := by
      rw [hU]
      have : u0 * (b * b) ≤ (u0 * b + u1) * b + u2 := by nlinarith
      nlinarith [Nat.mul_le_mul this (Nat.le_refl P)]
    have h3 : V < (v0 + 1) * (b * P) := by
      rw [hV]
      have hle : v0 * b + v1 + 1 ≤ (v0 + 1) * b := by nlinarith
      have := Nat.mul_le_mul hle (Nat.le_refl P)
      nlinarith
    have h4 : b * V < (v0 + 1) * (b * (b * P)) := by nlinarith
    omega
  unfold trialGuess
  split
  · next hne =>
    have hu0 : u0 < v0 := by omega
    have hlt : u0 * b + u1 < b * v0 := by nlinarith
    have := (Nat.div_lt_iff_lt_mul (show 0 < v0 by omega)).mpr hlt
    omega
  · omega

theorem trialGuess_le_add_two (b u0 u1 u2 v0 v1 U V Ul Vl P : ℕ)
    (hb : 2 ≤ b) (hu1 : u1 < b) (hu2 : u2 < b) (hv0 : 1 ≤ v0) (hv1 : v1 < b)
    (hP : 0 < P) (hnorm : b ≤ 2 * v0 + 1)
    (hU : U = ((u0 * b + u1) * b + u2) * P + Ul) (hUl : Ul < P)
    (hV : V = (v0 * b + v1) * P + Vl) (hVl : Vl < P)
    (hUbV : U < b * V) :
    trialGuess b v0 u0 u1 ≤ U / V + 2 := by
  have hVpos : 0 < V := by
    have h1 : 0 < (v0 * b + v1) * P := by positivity
    omega
  have hVub : V ≤ (v0 + 1) * (b * P) := by
    rw [hV]
    have hle : v0 * b + v1 + 1 ≤ (v0 + 1) * b := by nlinarith
    have := Nat.mul_le_mul hle (Nat.le_refl P)
    nlinarith
  unfold trialGuess
  split
  · next hne =>
    set g := (u0 * b + u1) / v0 with hg
    by_contra hcon
    push_neg at hcon
    set q := U / V with hq
    have hgle : g ≤ b - 1 := by
      have h' := trialGuess_le_b b u0 u1 u2 v0 v1 U V Ul Vl P hb hu1 hv0 hv1 hP hU hV hVl hUbV
      unfold trialGuess at h'
      rw [if_pos hne] at h'
      exact h'
    have hgv0 : g * v0 ≤ u0 * b + u1 := Nat.div_mul_le_self _ _
    have hUlow : (u0 * b + u1) * (b * P) ≤ U := by
      rw [hU]; nlinarith
    have hUq : U < (q + 1) * V := by
      have hdm := Nat.div_add_mod U V
      have hml := Nat.mod_lt U hVpos
      rw [← hq] at hdm
      nlinarith [hdm, hml]
    have hchain : g * v0 * (b * P) < (q + 1) * (v0 + 1) * (b * P) := by
      calc g * v0 * (b * P) ≤ (u0 * b + u1) * (b * P) :=
            Nat.mul_le_mul hgv0 (Nat.le_refl _)
        _ ≤ U := hUlow
        _ < (q + 1) * V := hUq
        _ ≤ (q + 1) * ((v0 + 1) * (b * P)) := Nat.mul_le_mul (Nat.le_refl _) hVub
        _ = (q + 1) * (v0 + 1) * (b * P) := by ring
    have hgv : g * v0 < (q + 1) * (v0 + 1) :=
      lt_of_mul_lt_mul_right hchain (Nat.zero_le _)
    have h2v0 : 2 * v0 < q + 1 := by nlinarith
    omega
  · next hne =>
    have hu0 : u0 = v0 := by omega
    have hUlow : v0 * b * (b * P) ≤ U := by
      rw [hU, ← hu0]
      have : u0 * b * b ≤ (u0 * b + u1) * b + u2 := by nlinarith
      nlinarith [Nat.mul_le_mul this (Nat.le_refl P)]
    have hq1 : v0 * b * (b * P) / ((v0 + 1) * (b * P)) ≤ U / V := by
      calc v0 * b * (b * P) / ((v0 + 1) * (b * P))
          ≤ U / ((v0 + 1) * (b * P)) := Nat.div_le_div_right hUlow
        _ ≤ U / V := Nat.div_le_div_left hVub hVpos
    have hcalc : v0 * b * (b * P) / ((v0 + 1) * (b * P)) = v0 * b / (v0 + 1) := by
      exact Nat.mul_div_mul_right _ _ (by positivity)
    have hfloor : b - 2 ≤ v0 * b / (v0 + 1) := by
      rw [Nat.le_div_iff_mul_le (by omega : 0 < v0 + 1)]
      zify [show 2 ≤ b by omega]
      nlinarith
    omega

/-- When the divisor is a single digit and the padded second divisor
digit is zero, the refined guess is exactly the true quotient digit. -/
theorem refineGuess_single (b u0 u1 u2 v0 : ℕ)
    (hb : 2 ≤ b) (hv0 : 1 ≤ v0) (hU : u0 * b + u1 < b * v0) :
    refineGuess b v0 0 u0 u1 u2 = (u0 * b + u1) / v0 := by
  have hu0 : u0 < v0 := by nlinarith
  have hne : v0 ≠ u0 := by omega
  have hg : trialGuess b v0 u0 u1 = (u0 * b + u1) / v0 := by
    unfold trialGuess; rw [if_pos hne]
  have hno : ¬ overTest b v0 0 u0 u1 u2 ((u0 * b + u1) / v0) := by
    unfold overTest
    push_neg
    have hle : ((u0 * b + u1) / v0) * v0 ≤ u0 * b + u1 := Nat.div_mul_le_self _ _
    have hleZ : ((((u0 * b + u1) / v0) : ℤ)) * v0 ≤ (u0 : ℤ) * b + u1 := by
      exact_mod_cast hle
    push_cast
    nlinarith
  have hrw : refineGuess b v0 0 u0 u1 u2 =
      if overTest b v0 0 u0 u1 u2 (trialGuess b v0 u0 u1) then
        if overTest b v0 0 u0 u1 u2 (trialGuess b v0 u0 u1 - 1) then
          trialGuess b v0 u0 u1 - 1 - 1
        else trialGuess b v0 u0 u1 - 1
      else trialGuess b v0 u0 u1 := rfl
  rw [hrw, hg, if_neg hno]

/-- Bounds on the refined trial digit for a divisor of at least two
digits: it is at least the true quotient digit and at most one more. -/
theorem refineGuess_bounds (b u0 u1 u2 v0 v1 U V Ul Vl P : ℕ)
    (hb : 2 ≤ b) (hu1 : u1 < b) (hu2 : u2 < b) (hv0 : 1 ≤ v0) (hv1 : v1 < b)
    (hP : 0 < P) (hnorm : b ≤ 2 * v0 + 1)
    (hU : U = ((u0 * b + u1) * b + u2) * P + Ul) (hUl : Ul < P)
    (hV : V = (v0 * b + v1) * P + Vl) (hVl : Vl < P)
    (hUbV : U < b * V) :
    U / V ≤ refineGuess b v0 v1 u0 u1 u2
      ∧ refineGuess b v0 v1 u0 u1 u2 ≤ U / V + 1 := by
  have hVpos : 0 < V := by
    have h1 : 0 < (v0 * b + v1) * P := by positivity
    omega
  have hVlow : (v0 * b + v1) * P ≤ V := by omega
  have hVlow2 : v0 * (b * P) ≤ V := by nlinarith
  have hUlow : ((u0 * b + u1) * b + u2) * P ≤ U := by rw [hU]; omega
  have hA : U / V ≤ trialGuess b v0 u0 u1 :=
    trialGuess_ge b u0 u1 u2 v0 v1 U V Ul P hb hu2 hv0 hP hU hUl hVlow2 hUbV
  have hBnd : trialGuess b v0 u0 u1 ≤ U / V + 2 :=
    trialGuess_le_add_two b u0 u1 u2 v0 v1 U V Ul Vl P hb hu1 hu2 hv0 hv1 hP
      hnorm hU hUl hV hVl hUbV
  have hgb : trialGuess b v0 u0 u1 ≤ b - 1 :=
    trialGuess_le_b b u0 u1 u2 v0 v1 U V Ul Vl P hb hu1 hv0 hv1 hP hU hV hVl hUbV
  have hrw : refineGuess b v0 v1 u0 u1 u2 =
      if overTest b v0 v1 u0 u1 u2 (trialGuess b v0 u0 u1) then
        if overTest b v0 v1 u0 u1 u2 (trialGuess b v0 u0 u1 - 1) then
          trialGuess b v0 u0 u1 - 1 - 1
        else trialGuess b v0 u0 u1 - 1
      else trialGuess b v0 u0 u1 := rfl
  generalize hgen : trialGuess b v0 u0 u1 = tg at hA hBnd hgb hrw
  rw [hrw]
  split
  · next ht0 =>
    have hlt0 : U < tg * V :=
      overTest_imp_lt b u0 u1 u2 v0 v1 U V Ul P _ hU hUl hVlow ht0
    have hq0 : U / V < tg := by
      rw [Nat.div_lt_iff_lt_mul hVpos]; exact hlt0
    split
    · next ht1 =>
      have hlt1 : U < (tg - 1) * V :=
        overTest_imp_lt b u0 u1 u2 v0 v1 U V Ul P _ hU hUl hVlow ht1
      have hq1 : U / V < tg - 1 := by
        rw [Nat.div_lt_iff_lt_mul hVpos]; exact hlt1
      obtain ⟨qv, hqv⟩ : ∃ t, U / V = t := ⟨_, rfl⟩
      rw [hqv] at hq1 hBnd ⊢
      omega
    · next ht1 =>
      have hfl := overTest_false_le b u0 u1 u2 v0 v1 U V Vl P
        (tg - 1) hb hv0 (by omega) hP hUlow hV hVl ht1
      obtain ⟨qv, hqv⟩ : ∃ t, U / V = t := ⟨_, rfl⟩
      rw [hqv] at hq0 hfl ⊢
      omega
  · next ht0 =>
    have hfl := overTest_false_le b u0 u1 u2 v0 v1 U V Vl P
      tg hb hv0 (by omega) hP hUlow hV hVl ht0
    obtain ⟨qv, hqv⟩ : ∃ t, U / V = t := ⟨_, rfl⟩
    rw [hqv] at hA hfl ⊢
    omega

/-! ### Small helper lemmas for the loop-step proof -/

theorem getD_lt (b : ℕ) (u : List ℕ) (m : ℕ) (hb : 0 < b)
    (h : ∀ d ∈ u, d < b) : u.getD m 0 < b := by
  rcases lt_or_ge m u.length with hm | hm
  · rw [List.getD_eq_getElem u 0 hm]
    exact h _ (List.getElem_mem hm)
  · rw [List.getD_eq_default u 0 hm]
    exact hb

theorem getD_take (l : List ℕ) (n k : ℕ) (h : k < n) :
    (l.take n).getD k 0 = l.getD k 0 := by
  simp [List.getD_eq_getElem?_getD, List.getElem?_take, h]

theorem mem_win (u : List ℕ) (s l : ℕ) : ∀ d ∈ win u s l, d ∈ u := by
  intro d hd
  unfold win at hd
  exact List.mem_of_mem_drop (List.mem_of_mem_take hd)

theorem val_win_split (b : ℕ) (u : List ℕ) (s n m : ℕ)
    (h : s + n + m ≤ u.length) :
    val b (win u s (n + m))
      = val b (win u s n) * b ^ m + val b (win u (s + n) m) := by
  rw [win_split, val_append, win_length]
  omega

theorem drop_set_of_lt (l : List ℕ) (m n a : ℕ) (h : m < n) :
    (l.set m a).drop n = l.drop n := by
  rw [List.drop_set]
  split <;> rfl

theorem refineGuess_le_trial (b v0 v1 u0 u1 u2 : ℕ) :
    refineGuess b v0 v1 u0 u1 u2 ≤ trialGuess b v0 u0 u1 := by
  have hrw : refineGuess b v0 v1 u0 u1 u2 =
      if overTest b v0 v1 u0 u1 u2 (trialGuess b v0 u0 u1) then
        if overTest b v0 v1 u0 u1 u2 (trialGuess b v0 u0 u1 - 1) then
          trialGuess b v0 u0 u1 - 1 - 1
        else trialGuess b v0 u0 u1 - 1
      else trialGuess b v0 u0 u1 := rfl
  rw [hrw]
  split
  · split <;> omega
  · omega

theorem arb_mul_core_length (b : ℕ) (v : List ℕ) (qg : ℕ) :
    (arb_mul_core b v qg).length = v.length + 1 := by
  simp [arb_mul_core, shmulMSB_length]

theorem arb_mul_core_val (b : ℕ) (v : List ℕ) (qg : ℕ) :
    val b (arb_mul_core b v qg) = qg * val b v := by
  have h := shmulMSB_val b qg v
  simp only [arb_mul_core, val_cons, shmulMSB_length]
  omega

theorem arb_mul_core_digits_lt (b : ℕ) (v : List ℕ) (qg : ℕ)
    (hq : 1 ≤ qg) (hqb : qg < b) (hv : ∀ d ∈ v, d < b) :
    ∀ d ∈ arb_mul_core b v qg, d < b := by
  intro d hd
  simp only [arb_mul_core, List.mem_cons] at hd
  rcases hd with rfl | hd'
  · exact lt_trans (shmulMSB_carry_lt b qg hq v hv) hqb
  · exact shmulMSB_digits_lt b qg (by omega) v d hd'

/-! ### Correctness of one multiply-and-subtract step (D4 to D6) -/

theorem mulSubStep_spec (b leb : ℕ) (v u : List ℕ) (i qg : ℕ)
    (hb : 2 ≤ b) (hleb : 1 ≤ leb)
    (hvlen : leb ≤ v.length)
    (hvd : ∀ d ∈ v.take leb, d < b)
    (hVpos : 1 ≤ val b (v.take leb))
    (hud : ∀ d ∈ u, d < b)
    (hwlen : leb + i < u.length)
    (hq1 : val b (win u i (leb + 1)) / val b (v.take leb) ≤ qg)
    (hq2 : qg ≤ val b (win u i (leb + 1)) / val b (v.take leb) + 1)
    (hqb : qg < b) :
    (mulSubStep b leb v u i qg).2
        = val b (win u i (leb + 1)) / val b (v.take leb)
      ∧ (mulSubStep b leb v u i qg).1.length = u.length
      ∧ (∀ d ∈ (mulSubStep b leb v u i qg).1, d < b)
      ∧ val b (win (mulSubStep b leb v u i qg).1 (i + 1) leb)
          = val b (win u i (leb + 1)) % val b (v.take leb)
      ∧ (mulSubStep b leb v u i qg).1.drop (leb + i + 1)
          = u.drop (leb + i + 1) := by
  have hbpos : 0 < b := by omega
  have hvt_len : (v.take leb).length = leb := by
    rw [List.length_take]; omega
  have hwin_len : (win u i (leb + 1)).length = leb + 1 :=
    win_length u i (leb + 1) (by omega)
  have hwd : ∀ d ∈ win u i (leb + 1), d < b :=
    fun d hd => hud d (mem_win u i (leb + 1) d hd)
  have hVlt : val b (v.take leb) < b ^ leb := by
    have h := val_lt b (v.take leb) hvd
    rwa [hvt_len] at h
  have hWlt : val b (win u i (leb + 1)) < b ^ (leb + 1) := by
    have h := val_lt b (win u i (leb + 1)) hwd
    rwa [hwin_len] at h
  have hdm := Nat.div_add_mod (val b (win u i (leb + 1))) (val b (v.take leb))
  have hmlt := Nat.mod_lt (val b (win u i (leb + 1)))
    (show 0 < val b (v.take leb) from hVpos)
  obtain ⟨q, hq⟩ : ∃ t, val b (win u i (leb + 1)) / val b (v.take leb) = t :=
    ⟨_, rfl⟩
  obtain ⟨R, hR⟩ : ∃ t, val b (win u i (leb + 1)) % val b (v.take leb) = t :=
    ⟨_, rfl⟩
  rw [hq] at hq1 hq2
  rw [hq, hR] at hdm
  rw [hR] at hmlt
  rw [hq, hR]
  have hpow : b ^ (leb + 1) = b * b ^ leb := pow_succ' b leb
  have hcons : win u i (leb + 1) = u.getD i 0 :: win u (i + 1) leb :=
    win_cons u i leb (by omega)
  have hvalcons : val b (win u i (leb + 1))
      = u.getD i 0 * b ^ leb + val b (win u (i + 1) leb) := by
    rw [hcons, val_cons, win_length u (i + 1) leb (by omega)]
  by_cases hqz : qg = 0
  · -- the trial digit is zero: D4 is skipped entirely
    subst hqz
    have hq0 : q = 0 := by omega
    have hVq0 : val b (v.take leb) * q = 0 := by rw [hq0, Nat.mul_zero]
    have hWV : val b (win u i (leb + 1)) < val b (v.take leb) := by omega
    have hstep : mulSubStep b leb v u i 0 = (u, 0) := by
      unfold mulSubStep; simp
    rw [hstep]
    have hu0 : u.getD i 0 = 0 := by
      by_contra h0
      have h1 : b ^ leb ≤ u.getD i 0 * b ^ leb :=
        Nat.le_mul_of_pos_left _ (by omega)
      omega
    rw [hu0] at hvalcons
    simp only [Nat.zero_mul, Nat.zero_add] at hvalcons
    refine ⟨by omega, rfl, hud, ?_, rfl⟩
    show val b (win u (i + 1) leb) = R
    omega
  · -- the trial digit is nonzero: multiply and subtract
    have htl : (arb_mul_core b (v.take leb) qg).length = leb + 1 := by
      rw [arb_mul_core_length, hvt_len]
    have htv : val b (arb_mul_core b (v.take leb) qg)
        = qg * val b (v.take leb) := arb_mul_core_val b (v.take leb) qg
    have htd : ∀ d ∈ arb_mul_core b (v.take leb) qg, d < b :=
      arb_mul_core_digits_lt b (v.take leb) qg (by omega) hqb hvd
    have harith : leb + i + 1 - (arb_mul_core b (v.take leb) qg).length = i := by
      rw [htl]; omega
    have hwin_eq : win u (leb + i + 1 - (arb_mul_core b (v.take leb) qg).length)
        ((arb_mul_core b (v.take leb) qg).length) = win u i (leb + 1) := by
      rw [harith, htl]
    have hsub_win : win (windowSub b u (leb + i) (arb_mul_core b (v.take leb) qg)).1
        i (leb + 1)
        = (subDigits b (win u i (leb + 1)) (arb_mul_core b (v.take leb) qg)).1 := by
      have h := windowSub_win b u (leb + i) (arb_mul_core b (v.take leb) qg)
        (by rw [htl]; omega) (by omega)
      rw [harith] at h
      rw [htl] at h
      exact h
    have hborrow : (windowSub b u (leb + i) (arb_mul_core b (v.take leb) qg)).2
        = (subDigits b (win u i (leb + 1)) (arb_mul_core b (v.take leb) qg)).2 := by
      have h : (windowSub b u (leb + i) (arb_mul_core b (v.take leb) qg)).2
          = (subDigits b (win u (leb + i + 1 - (arb_mul_core b (v.take leb) qg).length)
              ((arb_mul_core b (v.take leb) qg).length))
              (arb_mul_core b (v.take leb) qg)).2 := rfl
      rw [h, hwin_eq]
    have hlen_eq : (win u i (leb + 1)).length
        = (arb_mul_core b (v.take leb) qg).length := by rw [hwin_len, htl]
    have hsval := subDigits_val b (win u i (leb + 1))
      (arb_mul_core b (v.take leb) qg) hlen_eq htd
    have hslen := subDigits_length b (win u i (leb + 1))
      (arb_mul_core b (v.take leb) qg) hlen_eq
    have hbor_le := subDigits_borrow_le b (win u i (leb + 1))
      (arb_mul_core b (v.take leb) qg)
    have hbor_iff := subDigits_borrow_iff b (win u i (leb + 1))
      (arb_mul_core b (v.take leb) qg) hlen_eq hwd htd
    have hsub_len : (windowSub b u (leb + i) (arb_mul_core b (v.take leb) qg)).1.length
        = u.length := windowSub_length b u (leb + i) _ (by rw [htl]; omega) (by omega)
    have hsub_drop : (windowSub b u (leb + i) (arb_mul_core b (v.take leb) qg)).1.drop
        (leb + i + 1) = u.drop (leb + i + 1) :=
      windowSub_drop b u (leb + i) _ (by rw [htl]; omega) (by omega)
    have hsub_d : ∀ d ∈ (windowSub b u (leb + i) (arb_mul_core b (v.take leb) qg)).1,
        d < b := by
      intro d hd
      simp only [windowSub] at hd
      rcases List.mem_append.mp hd with hd' | hd'
      · rcases List.mem_append.mp hd' with hd'' | hd''
        · exact hud d (List.mem_of_mem_take hd'')
        · exact subDigits_digits_lt b _ _
            (fun x hx => hud x (List.mem_of_mem_drop (List.mem_of_mem_take hx)))
            d hd''
      · exact hud d (List.mem_of_mem_drop hd')
    rw [hwin_len] at hsval
    by_cases hnb : (subDigits b (win u i (leb + 1)) (arb_mul_core b (v.take leb) qg)).2 = 0
    · -- no borrow: the guess stands (D7)
      have hstep : mulSubStep b leb v u i qg
          = ((windowSub b u (leb + i) (arb_mul_core b (v.take leb) qg)).1, qg) := by
        unfold mulSubStep
        rw [if_pos hqz, if_pos (by rw [hborrow]; exact hnb)]
      have hnlt : ¬ (val b (win u i (leb + 1))
          < val b (arb_mul_core b (v.take leb) qg)) := by
        intro hcon
        have := hbor_iff.mpr hcon
        omega
      rw [htv] at hnlt
      push_neg at hnlt
      have hqgq : qg = q := by
        by_contra hne
        have hgt : q + 1 ≤ qg := by omega
        have h1 : (q + 1) * val b (v.take leb) ≤ qg * val b (v.take leb) :=
          Nat.mul_le_mul hgt (Nat.le_refl _)
        have h2 : (q + 1) * val b (v.take leb)
            = val b (v.take leb) * q + val b (v.take leb) := by ring
        omega
      have hsv : val b (subDigits b (win u i (leb + 1))
          (arb_mul_core b (v.take leb) qg)).1 = R := by
        rw [htv, hnb] at hsval
        have h3 : qg * val b (v.take leb) = q * val b (v.take leb) := by rw [hqgq]
        have hcomm : q * val b (v.take leb) = val b (v.take leb) * q := mul_comm _ _
        omega
      rw [hstep]
      dsimp only
      refine ⟨hqgq, hsub_len, hsub_d, ?_, hsub_drop⟩
      have hcons2 : win (windowSub b u (leb + i) (arb_mul_core b (v.take leb) qg)).1
          i (leb + 1)
          = (windowSub b u (leb + i) (arb_mul_core b (v.take leb) qg)).1.getD i 0
            :: win (windowSub b u (leb + i) (arb_mul_core b (v.take leb) qg)).1
              (i + 1) leb :=
        win_cons _ i leb (by omega)
      have hval2 : val b (subDigits b (win u i (leb + 1))
            (arb_mul_core b (v.take leb) qg)).1
          = (windowSub b u (leb + i) (arb_mul_core b (v.take leb) qg)).1.getD i 0
              * b ^ leb
            + val b (win (windowSub b u (leb + i)
                (arb_mul_core b (v.take leb) qg)).1 (i + 1) leb) := by
        rw [← hsub_win, hcons2, val_cons, win_length _ (i + 1) leb (by omega)]
      have htop : (windowSub b u (leb + i) (arb_mul_core b (v.take leb) qg)).1.getD i 0
          = 0 := by
        by_contra h0
        have h1 : b ^ leb ≤ (windowSub b u (leb + i)
            (arb_mul_core b (v.take leb) qg)).1.getD i 0 * b ^ leb :=
          Nat.le_mul_of_pos_left _ (by omega)
        omega
      rw [htop] at hval2
      show val b (win (windowSub b u (leb + i)
        (arb_mul_core b (v.take leb) qg)).1 (i + 1) leb) = R
      omega
    · -- borrow: decrement the digit and add the divisor back (add-back)
      have hbor1 : (subDigits b (win u i (leb + 1))
          (arb_mul_core b (v.take leb) qg)).2 = 1 := by omega
      have hlt : val b (win u i (leb + 1)) < qg * val b (v.take leb) := by
        have h := hbor_iff.mp hbor1
        rwa [htv] at h
      have hqgq : qg = q + 1 := by
        by_contra hne
        have hle : qg ≤ q := by omega
        have h1 : qg * val b (v.take leb) ≤ q * val b (v.take leb) :=
          Nat.mul_le_mul hle (Nat.le_refl _)
        have hcomm : q * val b (v.take leb) = val b (v.take leb) * q := mul_comm _ _
        omega
      have hstep : mulSubStep b leb v u i qg
          = (if (windowAdd b (windowSub b u (leb + i)
                (arb_mul_core b (v.take leb) qg)).1 (leb + i) (v.take leb)).2 ≠ 0 then
              (windowAdd b (windowSub b u (leb + i)
                (arb_mul_core b (v.take leb) qg)).1 (leb + i) (v.take leb)).1.set 0 0
            else (windowAdd b (windowSub b u (leb + i)
                (arb_mul_core b (v.take leb) qg)).1 (leb + i) (v.take leb)).1,
            qg - 1) := by
        unfold mulSubStep
        rw [if_pos hqz, if_neg (show ¬ (windowSub b u (leb + i)
          (arb_mul_core b (v.take leb) qg)).2 = 0 by rw [hborrow]; omega)]
      -- value identity of the borrowing subtraction
      have hsv : val b (subDigits b (win u i (leb + 1))
            (arb_mul_core b (v.take leb) qg)).1 + (q + 1) * val b (v.take leb)
          = val b (win u i (leb + 1)) + b ^ (leb + 1) := by
        rw [htv, hbor1] at hsval
        have h3 : qg * val b (v.take leb) = (q + 1) * val b (v.take leb) := by
          rw [hqgq]
        omega
      have hcons2 : win (windowSub b u (leb + i) (arb_mul_core b (v.take leb) qg)).1
          i (leb + 1)
          = (windowSub b u (leb + i) (arb_mul_core b (v.take leb) qg)).1.getD i 0
            :: win (windowSub b u (leb + i) (arb_mul_core b (v.take leb) qg)).1
              (i + 1) leb :=
        win_cons _ i leb (by omega)
      have hval2 : val b (subDigits b (win u i (leb + 1))
            (arb_mul_core b (v.take leb) qg)).1
          = (windowSub b u (leb + i) (arb_mul_core b (v.take leb) qg)).1.getD i 0
              * b ^ leb
            + val b (win (windowSub b u (leb + i)
                (arb_mul_core b (v.take leb) qg)).1 (i + 1) leb) := by
        rw [← hsub_win, hcons2, val_cons, win_length _ (i + 1) leb (by omega)]
      have hlowd : ∀ d ∈ win (windowSub b u (leb + i)
          (arb_mul_core b (v.take leb) qg)).1 (i + 1) leb, d < b :=
        fun d hd => hsub_d d (mem_win _ (i + 1) leb d hd)
      have hlow_lt : val b (win (windowSub b u (leb + i)
          (arb_mul_core b (v.take leb) qg)).1 (i + 1) leb) < b ^ leb := by
        have h := val_lt b _ hlowd
        rwa [win_length _ (i + 1) leb (by omega)] at h
      have htopd : (windowSub b u (leb + i)
          (arb_mul_core b (v.take leb) qg)).1.getD i 0 < b :=
        getD_lt b _ i hbpos hsub_d
      have hVcomm : q * val b (v.take leb) = val b (v.take leb) * q := mul_comm _ _
      have hVexp : (q + 1) * val b (v.take leb)
          = q * val b (v.take leb) + val b (v.take leb) := by ring
      -- the top digit after the borrowing subtraction is b - 1
      have htop : (windowSub b u (leb + i)
          (arb_mul_core b (v.take leb) qg)).1.getD i 0 = b - 1 := by
        by_contra h0
        have hle : (windowSub b u (leb + i)
            (arb_mul_core b (v.take leb) qg)).1.getD i 0 ≤ b - 2 := by omega
        have h1 : (windowSub b u (leb + i)
            (arb_mul_core b (v.take leb) qg)).1.getD i 0 * b ^ leb
            ≤ (b - 2) * b ^ leb := Nat.mul_le_mul hle (Nat.le_refl _)
        have h2 : (b - 2) * b ^ leb + 2 * b ^ leb = b * b ^ leb := by
          zify [show 2 ≤ b from hb]
          ring
        omega
      rw [htop] at hval2
      have h5 : (b - 1) * b ^ leb + b ^ leb = b * b ^ leb := by
        zify [show 1 ≤ b by omega]
        ring
      -- the add-back of the unscaled divisor into the same window
      have haw_arith : leb + i + 1 - (v.take leb).length = i + 1 := by
        rw [hvt_len]; omega
      have hadd_win : win (windowAdd b (windowSub b u (leb + i)
            (arb_mul_core b (v.take leb) qg)).1 (leb + i) (v.take leb)).1 (i + 1) leb
          = (addDigits b (win (windowSub b u (leb + i)
              (arb_mul_core b (v.take leb) qg)).1 (i + 1) leb) (v.take leb)).1 := by
        have h := windowAdd_win b (windowSub b u (leb + i)
            (arb_mul_core b (v.take leb) qg)).1 (leb + i) (v.take leb)
          (by rw [hvt_len]; omega) (by omega)
        rw [haw_arith] at h
        rw [hvt_len] at h
        exact h
      have hacarry : (windowAdd b (windowSub b u (leb + i)
            (arb_mul_core b (v.take leb) qg)).1 (leb + i) (v.take leb)).2
          = (addDigits b (win (windowSub b u (leb + i)
              (arb_mul_core b (v.take leb) qg)).1 (i + 1) leb) (v.take leb)).2 := by
        have h : (windowAdd b (windowSub b u (leb + i)
              (arb_mul_core b (v.take leb) qg)).1 (leb + i) (v.take leb)).2
            = (addDigits b (win (windowSub b u (leb + i)
                (arb_mul_core b (v.take leb) qg)).1
                (leb + i + 1 - (v.take leb).length) ((v.take leb).length))
                (v.take leb)).2 := rfl
        rw [h, haw_arith, hvt_len]
      have halen_eq : (win (windowSub b u (leb + i)
          (arb_mul_core b (v.take leb) qg)).1 (i + 1) leb).length
          = (v.take leb).length := by
        rw [win_length _ (i + 1) leb (by omega), hvt_len]
      have haval := addDigits_val b (win (windowSub b u (leb + i)
          (arb_mul_core b (v.take leb) qg)).1 (i + 1) leb) (v.take leb) halen_eq
      have hacar_iff := addDigits_carry_iff b (win (windowSub b u (leb + i)
          (arb_mul_core b (v.take leb) qg)).1 (i + 1) leb) (v.take leb)
        halen_eq hlowd hvd
      rw [win_length _ (i + 1) leb (by omega)] at haval hacar_iff
      -- the carry out of the add-back is 1
      have hcar1 : (addDigits b (win (windowSub b u (leb + i)
          (arb_mul_core b (v.take leb) qg)).1 (i + 1) leb) (v.take leb)).2 = 1 := by
        rw [hacar_iff]
        omega
      -- value of the restored window is exactly the remainder
      have hafinal : val b (addDigits b (win (windowSub b u (leb + i)
          (arb_mul_core b (v.take leb) qg)).1 (i + 1) leb) (v.take leb)).1 = R := by
        rw [hcar1] at haval
        omega
      have hadd_len : (windowAdd b (windowSub b u (leb + i)
            (arb_mul_core b (v.take leb) qg)).1 (leb + i) (v.take leb)).1.length
          = u.length := by
        rw [windowAdd_length b _ (leb + i) (v.take leb)
          (by rw [hvt_len]; omega) (by omega)]
        exact hsub_len
      have hadd_drop : (windowAdd b (windowSub b u (leb + i)
            (arb_mul_core b (v.take leb) qg)).1 (leb + i) (v.take leb)).1.drop
            (leb + i + 1)
          = u.drop (leb + i + 1) := by
        rw [windowAdd_drop b _ (leb + i) (v.take leb)
          (by rw [hvt_len]; omega) (by omega)]
        exact hsub_drop
      have hadd_d : ∀ d ∈ (windowAdd b (windowSub b u (leb + i)
          (arb_mul_core b (v.take leb) qg)).1 (leb + i) (v.take leb)).1, d < b := by
        intro d hd
        simp only [windowAdd] at hd
        rcases List.mem_append.mp hd with hd' | hd'
        · rcases List.mem_append.mp hd' with hd'' | hd''
          · exact hsub_d d (List.mem_of_mem_take hd'')
          · exact addDigits_digits_lt b _ _
              (fun x hx => hsub_d x (List.mem_of_mem_drop (List.mem_of_mem_take hx)))
              hvd d hd''
        · exact hsub_d d (List.mem_of_mem_drop hd')
      rw [hstep]
      have hcne : (windowAdd b (windowSub b u (leb + i)
          (arb_mul_core b (v.take leb) qg)).1 (leb + i) (v.take leb)).2 ≠ 0 := by
        rw [hacarry, hcar1]; omega
      rw [if_pos hcne]
      dsimp only
      refine ⟨by omega, ?_, ?_, ?_, ?_⟩
      · rw [List.length_set]; exact hadd_len
      · intro d hd
        rcases List.mem_or_eq_of_mem_set hd with hd' | rfl
        · exact hadd_d d hd'
        · omega
      · have hws : win ((windowAdd b (windowSub b u (leb + i)
              (arb_mul_core b (v.take leb) qg)).1 (leb + i) (v.take leb)).1.set 0 0)
              (i + 1) leb
            = win (windowAdd b (windowSub b u (leb + i)
              (arb_mul_core b (v.take leb) qg)).1 (leb + i) (v.take leb)).1
              (i + 1) leb := by
          unfold win
          rw [drop_set_of_lt _ 0 (i + 1) 0 (by omega)]
        rw [hws, hadd_win, hafinal]
      · rw [drop_set_of_lt _ 0 (leb + i + 1) 0 (by omega)]
        exact hadd_drop

/-! ### Correctness of one full loop iteration (D3 to D7) -/

theorem divStep_spec (b leb : ℕ) (v u : List ℕ) (i : ℕ)
    (hb : 2 ≤ b) (hleb : 1 ≤ leb)
    (hvlen : leb ≤ v.length)
    (hvd : ∀ d ∈ v.take leb, d < b)
    (hpad : ∀ m, leb ≤ m → v.getD m 0 = 0)
    (hnorm : b ≤ 2 * v.getD 0 0 + 1)
    (hud : ∀ d ∈ u, d < b)
    (hwlen : leb + i < u.length)
    (hW : val b (win u i (leb + 1)) < b * val b (v.take leb)) :
    (divStep b leb v u i).2 = val b (win u i (leb + 1)) / val b (v.take leb)
      ∧ (divStep b leb v u i).1.length = u.length
      ∧ (∀ d ∈ (divStep b leb v u i).1, d < b)
      ∧ val b (win (divStep b leb v u i).1 (i + 1) leb)
          = val b (win u i (leb + 1)) % val b (v.take leb)
      ∧ (divStep b leb v u i).1.drop (leb + i + 1) = u.drop (leb + i + 1) := by
  have hbpos : 0 < b := by omega
  have hv0pos : 1 ≤ v.getD 0 0 := by omega
  have hvt_cons : v.take leb = v.getD 0 0 :: win v 1 (leb - 1) := by
    have h1 : v.take leb = win v 0 leb := (win_zero v leb).symm
    have h2 : win v 0 (leb - 1 + 1) = v.getD 0 0 :: win v 1 (leb - 1) :=
      win_cons v 0 (leb - 1) (by omega)
    rw [h1, show leb = leb - 1 + 1 by omega, h2, Nat.add_sub_cancel]
  have hVpos : 1 ≤ val b (v.take leb) := by
    rw [hvt_cons, val_cons]
    have h3 : 0 < v.getD 0 0 * b ^ (win v 1 (leb - 1)).length := by positivity
    omega
  have hd : divStep b leb v u i
      = mulSubStep b leb v u i (refineGuess b (v.getD 0 0) (v.getD 1 0)
          (u.getD i 0) (u.getD (i + 1) 0) (u.getD (i + 2) 0)) := rfl
  have hu0 : u.getD i 0 < b := getD_lt b u i hbpos hud
  have hu1 : u.getD (i + 1) 0 < b := getD_lt b u (i + 1) hbpos hud
  have hu2 : u.getD (i + 2) 0 < b := getD_lt b u (i + 2) hbpos hud
  rcases Nat.lt_or_ge leb 2 with h1d | h2d
  · -- single-digit divisor: the padded second divisor digit is zero
    have hleb1 : leb = 1 := by omega
    subst hleb1
    have hv1 : v.getD 1 0 = 0 := hpad 1 (by omega)
    have hwt : win u i 2 = u.getD i 0 :: u.getD (i + 1) 0 :: [] := by
      rw [show (2 : ℕ) = 1 + 1 from rfl, win_cons u i 1 (by omega),
        win_cons u (i + 1) 0 (by omega)]
      rfl
    have hvt1 : v.take 1 = v.getD 0 0 :: [] := by
      rw [hvt_cons]
      rfl
    have hWval : val b (win u i 2) = u.getD i 0 * b + u.getD (i + 1) 0 := by
      rw [hwt]
      simp [val, val_cons]
    have hVval : val b (v.take 1) = v.getD 0 0 := by
      rw [hvt1]
      simp [val, val_cons]
    have hUlt : u.getD i 0 * b + u.getD (i + 1) 0 < b * v.getD 0 0 := by
      rw [hWval, hVval] at hW
      exact hW
    have hgq : refineGuess b (v.getD 0 0) (v.getD 1 0) (u.getD i 0)
        (u.getD (i + 1) 0) (u.getD (i + 2) 0)
        = (u.getD i 0 * b + u.getD (i + 1) 0) / v.getD 0 0 := by
      rw [hv1]
      exact refineGuess_single b (u.getD i 0) (u.getD (i + 1) 0)
        (u.getD (i + 2) 0) (v.getD 0 0) hb hv0pos hUlt
    have hq1 : val b (win u i 2) / val b (v.take 1)
        ≤ refineGuess b (v.getD 0 0) (v.getD 1 0) (u.getD i 0)
          (u.getD (i + 1) 0) (u.getD (i + 2) 0) := by
      rw [hgq, hWval, hVval]
    have hq2 : refineGuess b (v.getD 0 0) (v.getD 1 0) (u.getD i 0)
          (u.getD (i + 1) 0) (u.getD (i + 2) 0)
        ≤ val b (win u i 2) / val b (v.take 1) + 1 := by
      rw [hgq, hWval, hVval]
      omega
    have hqb : refineGuess b (v.getD 0 0) (v.getD 1 0) (u.getD i 0)
        (u.getD (i + 1) 0) (u.getD (i + 2) 0) < b := by
      rw [hgq]
      rw [Nat.div_lt_iff_lt_mul (by omega : 0 < v.getD 0 0)]
      calc u.getD i 0 * b + u.getD (i + 1) 0 < b * v.getD 0 0 := hUlt
        _ = b * v.getD 0 0 := rfl
        _ ≤ b * v.getD 0 0 := le_refl _
        _ = v.getD 0 0 * b * 1 := by ring
        _ ≤ b * v.getD 0 0 := by nlinarith
    rw [hd]
    exact mulSubStep_spec b 1 v u i _ hb (by omega) hvlen hvd hVpos hud hwlen
      hq1 hq2 hqb
  · -- divisor of at least two digits: the full Knuth refinement bound
    obtain ⟨m, hm⟩ : ∃ m, leb = m + 2 := ⟨leb - 2, by omega⟩
    subst hm
    have hPpos : 0 < b ^ m := pow_pos hbpos m
    -- decompose the dividend window
    have hw0 : win u i (m + 2 + 1) = u.getD i 0 :: win u (i + 1) (m + 2) :=
      win_cons u i (m + 2) (by omega)
    have hw1 : win u (i + 1) (m + 2) = u.getD (i + 1) 0 :: win u (i + 2) (m + 1) :=
      win_cons u (i + 1) (m + 1) (by omega)
    have hw2 : win u (i + 2) (m + 1) = u.getD (i + 2) 0 :: win u (i + 3) m :=
      win_cons u (i + 2) m (by omega)
    have hUl_len : (win u (i + 3) m).length = m :=
      win_length u (i + 3) m (by omega)
    have hUl_lt : val b (win u (i + 3) m) < b ^ m := by
      have h := val_lt b (win u (i + 3) m)
        (fun d hd => hud d (mem_win u (i + 3) m d hd))
      rwa [hUl_len] at h
    have hUeq : val b (win u i (m + 2 + 1))
        = ((u.getD i 0 * b + u.getD (i + 1) 0) * b + u.getD (i + 2) 0) * b ^ m
          + val b (win u (i + 3) m) := by
      rw [hw0, val_cons, hw1, val_cons, hw2, val_cons]
      simp only [List.length_cons, hUl_len]
      ring
    -- decompose the divisor
    have hv1cons : win v 1 (m + 1) = v.getD 1 0 :: win v 2 m :=
      win_cons v 1 m (by omega)
    have hvtake2 : (v.take (m + 2)).drop 2 = win v 2 m := by
      rw [List.drop_take]
      rfl
    have hVl_d : ∀ d ∈ win v 2 m, d < b := by
      intro d hd
      apply hvd
      rw [← hvtake2] at hd
      exact List.mem_of_mem_drop hd
    have hVl_len : (win v 2 m).length = m := win_length v 2 m (by omega)
    have hVl_lt : val b (win v 2 m) < b ^ m := by
      have h := val_lt b (win v 2 m) hVl_d
      rwa [hVl_len] at h
    have hv1lt : v.getD 1 0 < b := by
      apply hvd
      rw [hvt_cons, show m + 2 - 1 = m + 1 from rfl, hv1cons]
      simp
    have hVeq : val b (v.take (m + 2))
        = (v.getD 0 0 * b + v.getD 1 0) * b ^ m + val b (win v 2 m) := by
      rw [hvt_cons, show m + 2 - 1 = m + 1 from rfl]
      rw [val_cons, hv1cons, val_cons]
      simp only [List.length_cons, hVl_len]
      ring
    have hbounds := refineGuess_bounds b (u.getD i 0) (u.getD (i + 1) 0)
      (u.getD (i + 2) 0) (v.getD 0 0) (v.getD 1 0)
      (val b (win u i (m + 2 + 1))) (val b (v.take (m + 2)))
      (val b (win u (i + 3) m)) (val b (win v 2 m)) (b ^ m)
      hb hu1 hu2 hv0pos hv1lt hPpos hnorm hUeq hUl_lt hVeq hVl_lt hW
    have hqb : refineGuess b (v.getD 0 0) (v.getD 1 0) (u.getD i 0)
        (u.getD (i + 1) 0) (u.getD (i + 2) 0) < b := by
      have h1 := refineGuess_le_trial b (v.getD 0 0) (v.getD 1 0) (u.getD i 0)
        (u.getD (i + 1) 0) (u.getD (i + 2) 0)
      have h2 := trialGuess_le_b b (u.getD i 0) (u.getD (i + 1) 0)
        (u.getD (i + 2) 0) (v.getD 0 0) (v.getD 1 0)
        (val b (win u i (m + 2 + 1))) (val b (v.take (m + 2)))
        (val b (win u (i + 3) m)) (val b (win v 2 m)) (b ^ m)
        hb hu1 hv0pos hv1lt hPpos hUeq hVeq hVl_lt hW
      omega
    rw [hd]
    exact mulSubStep_spec b (m + 2) v u i _ hb (by omega) hvlen hvd hVpos hud
      hwlen hbounds.1 hbounds.2 hqb

/-! ### Correctness of the whole quotient-digit loop -/

theorem divLoop_spec (b leb : ℕ) (v : List ℕ)
    (hb : 2 ≤ b) (hleb : 1 ≤ leb)
    (hvlen : leb ≤ v.length)
    (hvd : ∀ d ∈ v.take leb, d < b)
    (hpad : ∀ m, leb ≤ m → v.getD m 0 = 0)
    (hnorm : b ≤ 2 * v.getD 0 0 + 1) :
    ∀ (fuel i j : ℕ) (u qd : List ℕ),
      (∀ d ∈ u, d < b) →
      leb + i + fuel ≤ u.length →
      j + fuel ≤ qd.length →
      (0 < fuel → val b (win u i (leb + 1)) < b * val b (v.take leb)) →
      (divLoop b leb v fuel i j u qd).2
        = qd.take j
          ++ toDigits b fuel
              (val b (win u i (leb + fuel)) / val b (v.take leb))
          ++ qd.drop (j + fuel) := by
  have hbpos : 0 < b := by omega
  have hv0pos : 1 ≤ v.getD 0 0 := by omega
  have hvt_len : (v.take leb).length = leb := by
    rw [List.length_take]; omega
  have hVlt : val b (v.take leb) < b ^ leb := by
    have h := val_lt b (v.take leb) hvd
    rwa [hvt_len] at h
  have hVpos : 1 ≤ val b (v.take leb) := by
    have hvt_cons : v.take leb = v.getD 0 0 :: win v 1 (leb - 1) := by
      have h1 : v.take leb = win v 0 leb := (win_zero v leb).symm
      have h2 : win v 0 (leb - 1 + 1) = v.getD 0 0 :: win v 1 (leb - 1) :=
        win_cons v 0 (leb - 1) (by omega)
      rw [h1, show leb = leb - 1 + 1 by omega, h2, Nat.add_sub_cancel]
    rw [hvt_cons, val_cons]
    have h3 : 0 < v.getD 0 0 * b ^ (win v 1 (leb - 1)).length := by positivity
    omega
  intro fuel
  induction fuel with
  | zero =>
    intro i j u qd _hud _hlen _hqd _hW
    simp only [divLoop, toDigits, List.nil_append, List.append_nil, Nat.add_zero]
    rw [List.take_append_drop]
  | succ fuel ih =>
    intro i j u qd hud hlen hqd hW
    have hWin : val b (win u i (leb + 1)) < b * val b (v.take leb) :=
      hW (by omega)
    obtain ⟨hstep2, hstep_len, hstep_d, hstep_win, hstep_drop⟩ :=
      divStep_spec b leb v u i hb hleb hvlen hvd hpad hnorm hud
        (by omega) hWin
    have hrec : divLoop b leb v (fuel + 1) i j u qd
        = divLoop b leb v fuel (i + 1) (j + 1) (divStep b leb v u i).1
            (qd.set j (divStep b leb v u i).2) := rfl
    -- values of the consumed digit strings
    have hjlen : j < qd.length := by omega
    have hAsplit : val b (win u i (leb + (fuel + 1)))
        = val b (win u i (leb + 1)) * b ^ fuel
          + val b (win u (i + (leb + 1)) fuel) := by
      rw [show leb + (fuel + 1) = (leb + 1) + fuel by omega]
      exact val_win_split b u i (leb + 1) fuel (by omega)
    have htail_eq : win (divStep b leb v u i).1 (i + 1 + leb) fuel
        = win u (i + (leb + 1)) fuel := by
      unfold win
      rw [show i + 1 + leb = leb + i + 1 by omega,
        show i + (leb + 1) = leb + i + 1 by omega, hstep_drop]
    have hA'split : val b (win (divStep b leb v u i).1 (i + 1) (leb + fuel))
        = (val b (win u i (leb + 1)) % val b (v.take leb)) * b ^ fuel
          + val b (win u (i + (leb + 1)) fuel) := by
      rw [val_win_split b (divStep b leb v u i).1 (i + 1) leb fuel
        (by rw [hstep_len]; omega), hstep_win, htail_eq]
    have htail_lt : val b (win u (i + (leb + 1)) fuel) < b ^ fuel := by
      have h := val_lt b (win u (i + (leb + 1)) fuel)
        (fun d hd => hud d (mem_win u (i + (leb + 1)) fuel d hd))
      rwa [win_length u (i + (leb + 1)) fuel (by omega)] at h
    have hmdm := Nat.div_add_mod (val b (win u i (leb + 1))) (val b (v.take leb))
    have hmod_lt := Nat.mod_lt (val b (win u i (leb + 1)))
      (show 0 < val b (v.take leb) from hVpos)
    have hq_lt : val b (win u i (leb + 1)) / val b (v.take leb) < b := by
      rw [Nat.div_lt_iff_lt_mul (show 0 < val b (v.take leb) from hVpos)]
      exact hWin
    have hA'lt : val b (win (divStep b leb v u i).1 (i + 1) (leb + fuel))
        < val b (v.take leb) * b ^ fuel := by
      rw [hA'split]
      have h1 : (val b (win u i (leb + 1)) % val b (v.take leb)) * b ^ fuel
          + b ^ fuel ≤ val b (v.take leb) * b ^ fuel := by
        have h2 : (val b (win u i (leb + 1)) % val b (v.take leb)) + 1
            ≤ val b (v.take leb) := by omega
        calc (val b (win u i (leb + 1)) % val b (v.take leb)) * b ^ fuel + b ^ fuel
            = ((val b (win u i (leb + 1)) % val b (v.take leb)) + 1) * b ^ fuel := by
              ring
          _ ≤ val b (v.take leb) * b ^ fuel := Nat.mul_le_mul h2 (Nat.le_refl _)
      omega
    have hdiv_split : val b (win u i (leb + (fuel + 1))) / val b (v.take leb)
        = (val b (win u i (leb + 1)) / val b (v.take leb)) * b ^ fuel
          + val b (win (divStep b leb v u i).1 (i + 1) (leb + fuel))
              / val b (v.take leb) := by
      have hAeq : val b (win u i (leb + (fuel + 1)))
          = val b (win (divStep b leb v u i).1 (i + 1) (leb + fuel))
            + (val b (win u i (leb + 1)) / val b (v.take leb)) * b ^ fuel
              * val b (v.take leb) := by
        rw [hAsplit, hA'split]
        have h3 : val b (win u i (leb + 1))
            = val b (v.take leb) * (val b (win u i (leb + 1)) / val b (v.take leb))
              + val b (win u i (leb + 1)) % val b (v.take leb) := hmdm.symm
        calc val b (win u i (leb + 1)) * b ^ fuel
              + val b (win u (i + (leb + 1)) fuel)
            = (val b (v.take leb) * (val b (win u i (leb + 1)) / val b (v.take leb))
                + val b (win u i (leb + 1)) % val b (v.take leb)) * b ^ fuel
              + val b (win u (i + (leb + 1)) fuel) := by rw [← h3]
          _ = (val b (win u i (leb + 1)) % val b (v.take leb)) * b ^ fuel
              + val b (win u (i + (leb + 1)) fuel)
              + val b (win u i (leb + 1)) / val b (v.take leb) * b ^ fuel
                * val b (v.take leb) := by ring
      rw [hAeq, Nat.add_mul_div_right _ _ (show 0 < val b (v.take leb) from hVpos)]
      omega
    have hq2_lt : val b (win (divStep b leb v u i).1 (i + 1) (leb + fuel))
        / val b (v.take leb) < b ^ fuel := by
      rw [Nat.div_lt_iff_lt_mul (show 0 < val b (v.take leb) from hVpos)]
      calc val b (win (divStep b leb v u i).1 (i + 1) (leb + fuel))
          < val b (v.take leb) * b ^ fuel := hA'lt
        _ = b ^ fuel * val b (v.take leb) := mul_comm _ _
    have htoD : toDigits b (fuel + 1)
        (val b (win u i (leb + (fuel + 1))) / val b (v.take leb))
        = (val b (win u i (leb + 1)) / val b (v.take leb))
          :: toDigits b fuel
              (val b (win (divStep b leb v u i).1 (i + 1) (leb + fuel))
                / val b (v.take leb)) := by
      rw [hdiv_split]
      exact toDigits_eq_cons b fuel _ _ (by omega) hq2_lt
    -- invariant for the next iteration
    have hWnext : 0 < fuel →
        val b (win (divStep b leb v u i).1 (i + 1) (leb + 1))
          < b * val b (v.take leb) := by
      intro hf
      have hsplit : val b (win (divStep b leb v u i).1 (i + 1) (leb + 1))
          = (val b (win u i (leb + 1)) % val b (v.take leb)) * b ^ 1
            + val b (win u (i + (leb + 1)) 1) := by
        rw [val_win_split b (divStep b leb v u i).1 (i + 1) leb 1
          (by rw [hstep_len]; omega), hstep_win]
        congr 2
        unfold win
        rw [show i + 1 + leb = leb + i + 1 by omega,
          show i + (leb + 1) = leb + i + 1 by omega, hstep_drop]
      have hd1 : val b (win u (i + (leb + 1)) 1) < b ^ 1 := by
        have h := val_lt b (win u (i + (leb + 1)) 1)
          (fun d hd => hud d (mem_win u (i + (leb + 1)) 1 d hd))
        rwa [win_length u (i + (leb + 1)) 1 (by omega)] at h
      rw [hsplit]
      have h2 : (val b (win u i (leb + 1)) % val b (v.take leb)) + 1
          ≤ val b (v.take leb) := by omega
      have h3 : ((val b (win u i (leb + 1)) % val b (v.take leb)) + 1) * b ^ 1
          ≤ val b (v.take leb) * b ^ 1 := Nat.mul_le_mul h2 (Nat.le_refl _)
      have h4 : val b (v.take leb) * b ^ 1 = b * val b (v.take leb) := by
        rw [pow_one]; ring
      nlinarith
    have hihres := ih (i + 1) (j + 1) (divStep b leb v u i).1
      (qd.set j (divStep b leb v u i).2) hstep_d
      (by rw [hstep_len]; omega)
      (by rw [List.length_set]; omega)
      hWnext
    rw [hrec, hihres, hstep2]
    -- reassemble the output buffer
    have hset_eq : qd.set j (val b (win u i (leb + 1)) / val b (v.take leb))
        = qd.take j ++ (val b (win u i (leb + 1)) / val b (v.take leb))
            :: qd.drop (j + 1) := by
      rw [List.set_eq_take_append_cons_drop, if_pos hjlen]
    have htake_set : (qd.set j (val b (win u i (leb + 1)) / val b (v.take leb))).take
          (j + 1)
        = qd.take j ++ [val b (win u i (leb + 1)) / val b (v.take leb)] := by
      rw [hset_eq, List.append_cons]
      refine take_append_left _ _ _ ?_
      rw [List.length_append, List.length_take]
      simp
      omega
    have hdrop_set : (qd.set j (val b (win u i (leb + 1)) / val b (v.take leb))).drop
          (j + 1 + fuel)
        = qd.drop (j + 1 + fuel) :=
      drop_set_of_lt qd j (j + 1 + fuel) _ (by omega)
    rw [htake_set, hdrop_set, htoD]
    rw [show j + (fuel + 1) = j + 1 + fuel by omega]
    simp [List.append_assoc]

/-! ### Leading-zero stripping and prefix-value lemmas -/

theorem leadZeros_cons_zero (ds : List ℕ) :
    leadZeros (0 :: ds) = leadZeros ds + 1 := by
  simp [leadZeros]

theorem leadZeros_cons_ne (d : ℕ) (ds : List ℕ) (h : d ≠ 0) :
    leadZeros (d :: ds) = 0 := by
  simp [leadZeros, h]

theorem leadZeros_le (l : List ℕ) : leadZeros l ≤ l.length := by
  induction l with
  | nil => simp [leadZeros]
  | cons d ds ih =>
    by_cases hd0 : d = 0
    · subst hd0
      rw [leadZeros_cons_zero, List.length_cons]
      omega
    · rw [leadZeros_cons_ne d ds hd0]
      omega

theorem leadZeros_lt (b : ℕ) (hb : 1 ≤ b) (l : List ℕ) (h : val b l ≠ 0) :
    leadZeros l < l.length := by
  induction l with
  | nil => simp [val] at h
  | cons d ds ih =>
    by_cases hd0 : d = 0
    · subst hd0
      rw [val_cons] at h
      simp only [Nat.zero_mul, Nat.zero_add] at h
      rw [leadZeros_cons_zero, List.length_cons]
      have := ih h
      omega
    · rw [leadZeros_cons_ne d ds hd0, List.length_cons]
      omega

theorem val_drop_leadZeros (b : ℕ) (l : List ℕ) :
    val b (l.drop (leadZeros l)) = val b l := by
  induction l with
  | nil => simp [leadZeros]
  | cons d ds ih =>
    by_cases hd0 : d = 0
    · subst hd0
      rw [leadZeros_cons_zero, List.drop_succ_cons, ih, val_cons]
      omega
    · rw [leadZeros_cons_ne d ds hd0, List.drop_zero]

theorem head_drop_leadZeros (l : List ℕ) (h : leadZeros l < l.length) :
    1 ≤ (l.drop (leadZeros l)).getD 0 0 := by
  induction l with
  | nil => simp at h
  | cons d ds ih =>
    by_cases hd0 : d = 0
    · subst hd0
      rw [leadZeros_cons_zero, List.drop_succ_cons]
      apply ih
      rw [leadZeros_cons_zero, List.length_cons] at h
      omega
    · rw [leadZeros_cons_ne d ds hd0, List.drop_zero, List.getD_cons_zero]
      omega

theorem getD_replicate (n a m : ℕ) : (List.replicate n a).getD m a = a := by
  simp [List.getD_eq_getElem?_getD, List.getElem?_replicate]
  split <;> rfl

theorem getD_append_pad (A : List ℕ) (k m : ℕ) (h : A.length ≤ m) :
    (A ++ List.replicate k 0).getD m 0 = 0 := by
  simp only [List.getD_eq_getElem?_getD]
  rw [List.getElem?_append_right h, List.getElem?_replicate]
  split <;> rfl

theorem val_take_div (b : ℕ) (hb : 1 ≤ b) (X : List ℕ) (k : ℕ)
    (hk : k ≤ X.length) (hd : ∀ d ∈ X, d < b) :
    val b (X.take k) = val b X / b ^ (X.length - k) := by
  have hsplit : X = X.take k ++ X.drop k := (List.take_append_drop k X).symm
  have hdlen : (X.drop k).length = X.length - k := List.length_drop k X
  have hdlt : val b (X.drop k) < b ^ (X.length - k) := by
    have h := val_lt b (X.drop k) (fun d hd' => hd d (List.mem_of_mem_drop hd'))
    rwa [hdlen] at h
  have hv : val b X = val b (X.take k) * b ^ (X.length - k) + val b (X.drop k) := by
    conv_lhs => rw [hsplit]
    rw [val_append, hdlen]
  rw [hv, Nat.mul_comm]
  rw [Nat.mul_add_div (Nat.pos_pow_of_pos _ hb), Nat.div_eq_of_lt hdlt,
    Nat.add_zero]

/-! ### Normalization lemmas (step D1) -/

theorem shmulMSB_cons (b n d0 : ℕ) (rest : List ℕ) :
    shmulMSB b n (d0 :: rest)
      = ((d0 * n + (shmulMSB b n rest).1) / b,
          (d0 * n + (shmulMSB b n rest).1) % b :: (shmulMSB b n rest).2) := rfl

theorem shmulMSB_no_overflow (b n d0 : ℕ) (rest : List ℕ)
    (hb : 1 ≤ b) (hn : 1 ≤ n) (hbound : d0 * n + n ≤ b)
    (hdig : ∀ x ∈ d0 :: rest, x < b) :
    (shmulMSB b n (d0 :: rest)).1 = 0
    ∧ (shmulMSB b n (d0 :: rest)).2.getD 0 0
        = d0 * n + (shmulMSB b n rest).1 := by
  have hc : (shmulMSB b n rest).1 < n :=
    shmulMSB_carry_lt b n hn rest (fun x hx => hdig x (by simp [hx]))
  have hval : d0 * n + (shmulMSB b n rest).1 < b := by omega
  rw [shmulMSB_cons]
  constructor
  · exact Nat.div_eq_of_lt hval
  · simp only [List.getD_cons_zero]
    exact Nat.mod_eq_of_lt hval

/-- The normalization factor satisfies the halving property: after
scaling by norm = b div (v0 + 1), twice the new leading digit is at
least b - 1. -/
theorem norm_half (b v0 : ℕ) (hb : 2 ≤ b) (hv0 : 1 ≤ v0) (hv0b : v0 < b) :
    b ≤ 2 * ((b / (v0 + 1)) * v0) + 1 := by
  have hdm := Nat.div_add_mod b (v0 + 1)
  have hml : b % (v0 + 1) < v0 + 1 := Nat.mod_lt b (by omega)
  have hn1 : 1 ≤ b / (v0 + 1) := by
    rw [Nat.le_div_iff_mul_le (by omega : 0 < v0 + 1)]
    omega
  nlinarith [hdm, hml, hn1]

theorem headD_eq_getD (x : List ℕ) : x.headD 0 = x.getD 0 0 := by
  cases x <;> rfl

theorem getD_append_left (A B : List ℕ) (m : ℕ) (h : m < A.length) :
    (A ++ B).getD m 0 = A.getD m 0 := by
  simp only [List.getD_eq_getElem?_getD]
  rw [List.getElem?_append, if_pos h]

theorem val_ge_pow (b : ℕ) (X : List ℕ) (h : 1 ≤ X.getD 0 0) :
    b ^ (X.length - 1) ≤ val b X := by
  cases X with
  | nil => simp at h
  | cons d ds =>
    rw [val_cons, List.length_cons, Nat.add_sub_cancel]
    have h1 : 1 ≤ d := by simpa using h
    have h2 : b ^ ds.length ≤ d * b ^ ds.length :=
      Nat.le_mul_of_pos_left _ h1
    omega

theorem shmul_of_two_le (x : List ℕ) (d b : ℕ) (h : 2 ≤ d) :
    shmul x d b = shmulMSB b d x := by
  unfold shmul
  rw [if_neg (by omega), if_neg (by omega)]

theorem shmulAt_zero_noCarry (dst : List ℕ) (size d b : ℕ)
    (h : (shmul (dst.take size) d b).1 = 0) :
    shmulAt dst 0 size d b = (shmul (dst.take size) d b).2 ++ dst.drop size := by
  unfold shmulAt
  simp only [List.drop_zero, Nat.zero_add, h, ne_eq, not_true_eq_false,
    if_false, List.take_zero, List.nil_append, not_false_eq_true]

theorem normalizeStep_eq (b su sv : ℕ) (u v : List ℕ) :
    normalizeStep b su sv u v
      = if b / (v.headD 0 + 1) ≠ 1
          then (shmulAt u 0 su (b / (v.headD 0 + 1)) b,
                shmulAt v 0 sv (b / (v.headD 0 + 1)) b)
          else (u, v) := rfl

/-! ### Canonicalization (remove_leading_zeros) lemmas -/

theorem rlz_zero (ds : List ℕ) : rlz ds 0 = (ds, 0) := by cases ds <;> rfl

theorem rlz_one (ds : List ℕ) : rlz ds 1 = (ds, 1) := by cases ds <;> rfl

theorem rlz_nil (n : ℕ) : rlz [] (n + 2) = ([], n + 2) := rfl

theorem rlz_val (b : ℕ) (lp : ℕ) : ∀ ds : List ℕ,
    val b (rlz ds lp).1 = val b ds := by
  induction lp with
  | zero => intro ds; rw [rlz_zero]
  | succ n ih =>
    intro ds
    cases n with
    | zero => rw [rlz_one]
    | succ m =>
      cases ds with
      | nil => rfl
      | cons d ds' =>
        by_cases hd : d = 0
        · subst hd
          rw [show rlz (0 :: ds') (m + 1 + 1) = rlz ds' (m + 1) by simp [rlz]]
          rw [ih ds']
          simp [val_cons]
        · rw [show rlz (d :: ds') (m + 1 + 1) = (d :: ds', m + 1 + 1) by
            simp [rlz, hd]]

theorem rlz_shape (lp : ℕ) : ∀ ds : List ℕ,
    (rlz ds lp).2 ≤ lp
    ∧ (rlz ds lp).1.length + lp = ds.length + (rlz ds lp).2
    ∧ (1 ≤ lp → 1 ≤ (rlz ds lp).2) := by
  induction lp with
  | zero =>
    intro ds
    rw [rlz_zero]
    exact ⟨Nat.le_refl 0, by dsimp only <;> omega, by intro h; omega⟩
  | succ n ih =>
    intro ds
    cases n with
    | zero =>
      rw [rlz_one]
      exact ⟨Nat.le_refl 1, by dsimp only <;> omega,
        by intro h; dsimp only <;> omega⟩
    | succ m =>
      cases ds with
      | nil =>
        rw [rlz_nil]
        exact ⟨Nat.le_refl _, by dsimp only <;> omega,
          by intro h; dsimp only <;> omega⟩
      | cons d ds' =>
        by_cases hd : d = 0
        · subst hd
          rw [show rlz (0 :: ds') (m + 1 + 1) = rlz ds' (m + 1) by simp [rlz]]
          have h := ih ds'
          refine ⟨by omega, ?_, by omega⟩
          simp only [List.length_cons]
          omega
        · rw [show rlz (d :: ds') (m + 1 + 1) = (d :: ds', m + 1 + 1) by
            simp [rlz, hd]]
          refine ⟨Nat.le_refl _, ?_, by intro h; dsimp only <;> omega⟩
          dsimp only

theorem rlz_mem (lp : ℕ) : ∀ (ds : List ℕ) (d : ℕ),
    d ∈ (rlz ds lp).1 → d ∈ ds := by
  induction lp with
  | zero => intro ds d h; rw [rlz_zero] at h; exact h
  | succ n ih =>
    intro ds d h
    cases n with
    | zero => rw [rlz_one] at h; exact h
    | succ m =>
      cases ds with
      | nil => exact h
      | cons x ds' =>
        by_cases hx : x = 0
        · subst hx
          rw [show rlz (0 :: ds') (m + 1 + 1) = rlz ds' (m + 1) by simp [rlz]]
            at h
          exact List.mem_cons_of_mem 0 (ih ds' d h)
        · rw [show rlz (x :: ds') (m + 1 + 1) = (x :: ds', m + 1 + 1) by
            simp [rlz, hx]] at h
          exact h

theorem rlz_head (lp : ℕ) : ∀ ds : List ℕ, lp ≤ ds.length →
    2 ≤ (rlz ds lp).2 → (rlz ds lp).1.getD 0 0 ≠ 0 := by
  induction lp with
  | zero =>
    intro ds _ h2
    rw [rlz_zero] at h2
    dsimp only at h2
    omega
  | succ n ih =>
    intro ds hlen h2
    cases n with
    | zero =>
      rw [rlz_one] at h2
      dsimp only at h2
      omega
    | succ m =>
      cases ds with
      | nil => simp at hlen
      | cons x ds' =>
        by_cases hx : x = 0
        · subst hx
          rw [show rlz (0 :: ds') (m + 1 + 1) = rlz ds' (m + 1) by simp [rlz]]
            at h2 ⊢
          exact ih ds' (by simp at hlen; omega) h2
        · rw [show rlz (x :: ds') (m + 1 + 1) = (x :: ds', m + 1 + 1) by
            simp [rlz, hx]] at h2 ⊢
          simpa using hx

theorem remove_leading_zeros_spec (b : ℕ) (q : fxdpnt)
    (hlen : q.number.length = q.len) (hlp : q.lp ≤ q.len) :
    val b (remove_leading_zeros q).number = val b q.number
    ∧ (remove_leading_zeros q).number.length = (remove_leading_zeros q).len
    ∧ (remove_leading_zeros q).lp ≤ (remove_leading_zeros q).len
    ∧ (remove_leading_zeros q).len - (remove_leading_zeros q).lp
        = q.len - q.lp
    ∧ (1 ≤ q.lp → 1 ≤ (remove_leading_zeros q).lp)
    ∧ (∀ d ∈ (remove_leading_zeros q).number, d ∈ q.number)
    ∧ ((remove_leading_zeros q).lp ≤ 1
        ∨ (remove_leading_zeros q).number.getD 0 0 ≠ 0) := by
  have hs := rlz_shape q.lp q.number
  have hv := rlz_val b q.lp q.number
  have hm := rlz_mem q.lp q.number
  refine ⟨hv, ?_, ?_, ?_, ?_, hm, ?_⟩
  · show (rlz q.number q.lp).1.length = q.len - (q.lp - (rlz q.number q.lp).2)
    omega
  · show (rlz q.number q.lp).2 ≤ q.len - (q.lp - (rlz q.number q.lp).2)
    omega
  · show q.len - (q.lp - (rlz q.number q.lp).2) - (rlz q.number q.lp).2
        = q.len - q.lp
    omega
  · intro h1
    show 1 ≤ (rlz q.number q.lp).2
    exact hs.2.2 h1
  · by_cases h2 : 2 ≤ (rlz q.number q.lp).2
    · right
      exact rlz_head q.lp q.number (by omega) h2
    · left
      show (rlz q.number q.lp).2 ≤ 1
      omega

theorem arb_div_core_spec (num den : fxdpnt) (b scale : ℕ)
    (hb : 2 ≤ b)
    (hnlen : num.number.length = num.len)
    (hnlp : num.lp ≤ num.len)
    (hnd : ∀ d ∈ num.number, d < b)
    (hdlen : den.number.length = den.len)
    (hdlp : den.lp ≤ den.len)
    (hdd : ∀ d ∈ den.number, d < b)
    (hdnz : val b den.number ≠ 0) :
    ∃ q0 : fxdpnt,
      arb_div_core num den b scale = Except.ok q0
      ∧ val b q0.number
          = val b num.number * b ^ (scale + rr den)
            / (val b den.number * b ^ (rr num))
      ∧ q0.number.length = q0.len
      ∧ (∀ d ∈ q0.number, d < b)
      ∧ q0.len = q0.lp + scale
      ∧ 1 ≤ q0.lp := by
  have hb1 : 1 ≤ b := by omega
  have hz : iszero den = false := by
    cases h : iszero den with
    | false => rfl
    | true =>
      exfalso; apply hdnz
      apply val_eq_zero_of_all_zero
      intro d hd
      have := List.all_eq_true.mp h d hd
      simpa using this
  have hrl : rl num = num.lp := rfl
  have hrrn : rr num = num.len - num.lp := rfl
  have hrrd : rr den = den.len - den.lp := rfl
  have hdropn_lt : leadZeros den.number < den.number.length :=
    leadZeros_lt b hb1 den.number hdnz
  have hDpos : 1 ≤ val b den.number := Nat.one_le_iff_ne_zero.mpr hdnz
  have hNlt : val b num.number < b ^ num.len := by
    have := val_lt b num.number hnd
    rwa [hnlen] at this
  have hDge : b ^ (den.len - leadZeros den.number - 1) ≤ val b den.number := by
    have h1 := val_ge_pow b (den.number.drop (leadZeros den.number))
      (head_drop_leadZeros den.number hdropn_lt)
    rw [val_drop_leadZeros, List.length_drop, hdlen] at h1
    exact h1
  by_cases hoos : den.len - leadZeros den.number > rl num + rr den + scale
  · -- out-of-scale early exit: the quotient is identically zero
    have hqd : divQuodig (rl num + rr den) (den.len - leadZeros den.number) scale
        = scale + 1 := by
      unfold divQuodig; rw [if_pos hoos]
    refine ⟨⟨List.replicate (1 + scale) 0, 1, 1 + scale⟩, ?_, ?_, ?_, ?_, rfl, le_refl 1⟩
    · unfold arb_div_core
      simp only [hz, Bool.false_eq_true, if_false]
      rw [if_pos hoos, hqd]
      have h1 : scale + 1 - scale = 1 := by omega
      rw [h1]
    · -- value: both sides are zero
      show val b (List.replicate (1 + scale) 0) = _
      rw [val_replicate_zero]
      symm
      apply Nat.div_eq_of_lt
      have hexp : num.len + (scale + rr den)
          ≤ rr num + (den.len - leadZeros den.number - 1) := by
        unfold rl rr at hoos
        omega
      calc val b num.number * b ^ (scale + rr den)
          < b ^ num.len * b ^ (scale + rr den) := by
            have hp : 0 < b ^ (scale + rr den) := Nat.pos_pow_of_pos _ hb1
            exact Nat.mul_lt_mul_of_lt_of_le hNlt (le_refl _) hp
        _ = b ^ (num.len + (scale + rr den)) := (pow_add b num.len (scale + rr den)).symm
        _ ≤ b ^ (rr num + (den.len - leadZeros den.number - 1)) :=
            Nat.pow_le_pow_right hb1 hexp
        _ = b ^ (den.len - leadZeros den.number - 1) * b ^ (rr num) := by
            rw [pow_add, Nat.mul_comm]
        _ ≤ val b den.number * b ^ (rr num) :=
            Nat.mul_le_mul_right _ hDge
    · simp
    · intro d hd
      have := List.eq_of_mem_replicate hd
      omega
  · -- main branch: the quotient loop runs
    -- leading-zero stripping of the divisor
    obtain ⟨x0, xs, hx⟩ : ∃ x0 xs,
        den.number.drop (leadZeros den.number) = x0 :: xs := by
      have hVdl : 1 ≤ (den.number.drop (leadZeros den.number)).length := by
        rw [List.length_drop]; omega
      cases h : den.number.drop (leadZeros den.number) with
      | nil => rw [h] at hVdl; simp at hVdl
      | cons a l => exact ⟨a, l, rfl⟩
    have hx0_ge : 1 ≤ x0 := by
      have h1 := head_drop_leadZeros den.number hdropn_lt
      rw [hx, List.getD_cons_zero] at h1
      exact h1
    have hxval : val b (x0 :: xs) = val b den.number := by
      rw [← hx]; exact val_drop_leadZeros b den.number
    obtain ⟨dropn, hdropn⟩ : ∃ t, leadZeros den.number = t := ⟨_, rfl⟩
    rw [hdropn] at hoos hdropn_lt hDge hx
    obtain ⟨off, hoff⟩ : ∃ t, divOffset num den scale = t := ⟨_, rfl⟩
    have hx0_lt : x0 < b := by
      have hmem : x0 ∈ den.number.drop dropn := by
        rw [hx]; exact List.mem_cons_self x0 xs
      exact hdd x0 (List.mem_of_mem_drop hmem)
    have hxs_lt : ∀ d ∈ xs, d < b := by
      intro d hd
      have hmem : d ∈ den.number.drop dropn := by
        rw [hx]; exact List.mem_cons_of_mem x0 hd
      exact hdd d (List.mem_of_mem_drop hmem)
    have hLEBeq : den.len - dropn = xs.length + 1 := by
      have h1 := List.length_drop dropn den.number
      rw [hx] at h1
      simp only [List.length_cons] at h1
      omega
    have hoffc : off + rr num = max (scale + rr den) (rr num) := by
      rw [← hoff]; unfold divOffset; split <;> omega
    have hsu : divSu num den scale = num.len + off + 1 := by
      unfold divSu
      rw [hoff]
      unfold rl rr
      omega
    -- working divisor buffer facts
    have hVtake : (den.number.drop dropn ++ List.replicate (off + 3) 0).take
        (den.len - dropn) = x0 :: xs := by
      rw [hx]
      exact take_append_left _ _ _ (by simp only [List.length_cons]; omega)
    have hVd : ∀ d ∈ (den.number.drop dropn
        ++ List.replicate (off + 3) 0).take (den.len - dropn), d < b := by
      rw [hVtake]; intro d hd
      rcases List.mem_cons.mp hd with rfl | hd'
      · exact hx0_lt
      · exact hxs_lt d hd'
    have hVpad : ∀ m, den.len - dropn ≤ m →
        (den.number.drop dropn ++ List.replicate (off + 3) 0).getD m 0 = 0 := by
      intro m hm
      apply getD_append_pad
      rw [List.length_drop]; omega
    have hVlen : den.len - dropn
        ≤ (den.number.drop dropn ++ List.replicate (off + 3) 0).length := by
      simp only [List.length_append, List.length_drop, List.length_replicate]
      omega
    have hv00 : (den.number.drop dropn ++ List.replicate (off + 3) 0).getD 0 0
        = x0 := by
      rw [hx, List.cons_append, List.getD_cons_zero]
    have hVheadD : (den.number.drop dropn ++ List.replicate (off + 3) 0).headD 0
        = x0 := by
      rw [headD_eq_getD, hv00]
    have hVval : val b ((den.number.drop dropn
        ++ List.replicate (off + 3) 0).take (den.len - dropn))
        = val b den.number := by
      rw [hVtake, hxval]
    -- the normalization factor
    obtain ⟨norm, hnd2⟩ : ∃ t, b / (x0 + 1) = t := ⟨_, rfl⟩
    have hnpos : 1 ≤ norm := by
      rw [← hnd2, Nat.le_div_iff_mul_le (by omega : 0 < x0 + 1)]; omega
    have hnmul : norm * (x0 + 1) ≤ b := by
      rw [← hnd2]; exact Nat.div_mul_le_self b (x0 + 1)
    have h2n : 2 * norm ≤ b := by
      have h3 : norm * 2 ≤ norm * (x0 + 1) := Nat.mul_le_mul_left norm (by omega)
      omega
    have hnormhalf : b ≤ 2 * (norm * x0) + 1 := by
      have h1 := norm_half b x0 hb hx0_ge hx0_lt
      rwa [hnd2] at h1
    -- working dividend buffer facts
    have hU_len : (0 :: (num.number ++ List.replicate (off + 2) 0)).length
        = num.len + off + 3 := by
      simp only [List.length_cons, List.length_append, List.length_replicate,
        hnlen]
      omega
    have hUtake : (0 :: (num.number ++ List.replicate (off + 2) 0)).take
        (num.len + off + 1) = 0 :: (num.number ++ List.replicate off 0) := by
      rw [List.take_succ_cons]
      congr 1
      rw [← hnlen, List.take_append]
      congr 1
      simp [List.take_replicate, Nat.min_eq_left (by omega : off ≤ off + 2)]
    have hUd : ∀ d ∈ (0 :: (num.number ++ List.replicate (off + 2) 0)),
        d < b := by
      intro d hd
      simp only [List.mem_cons, List.mem_append, List.mem_replicate] at hd
      rcases hd with rfl | hd | ⟨-, rfl⟩
      · omega
      · exact hnd d hd
      · omega
    have hAdig : ∀ d ∈ (0 :: (num.number ++ List.replicate off 0)), d < b := by
      intro d hd
      simp only [List.mem_cons, List.mem_append, List.mem_replicate] at hd
      rcases hd with rfl | hd | ⟨-, rfl⟩
      · omega
      · exact hnd d hd
      · omega
    have hUval : val b (0 :: (num.number ++ List.replicate off 0))
        = val b num.number * b ^ off := by
      rw [val_cons, val_append, val_replicate_zero, List.length_replicate]
      simp
    have hUSUlt : val b (0 :: (num.number ++ List.replicate off 0))
        < b ^ (num.len + off) := by
      rw [val_cons]
      simp only [Nat.zero_mul, Nat.zero_add]
      have h1 := val_lt b (num.number ++ List.replicate off 0) (by
        intro d hd
        rcases List.mem_append.mp hd with h | h
        · exact hnd d h
        · have := List.eq_of_mem_replicate h; omega)
      rwa [List.length_append, hnlen, List.length_replicate] at h1
    -- normalization: consolidated facts about the scaled buffers
    obtain ⟨UN, VN, hUVeq, hUNlen, hUNd, hUNval, hVNd, hVNpad, hVNhead,
        hVNval, hVNlen⟩ :
      ∃ UN VN,
        normalizeStep b (divSu num den scale) (den.len - dropn)
            (0 :: (num.number ++ List.replicate (off + 2) 0))
            (den.number.drop dropn ++ List.replicate (off + 3) 0)
          = (UN, VN)
        ∧ UN.length = num.len + off + 3
        ∧ (∀ d ∈ UN, d < b)
        ∧ val b (UN.take (num.len + off + 1))
            = norm * (val b num.number * b ^ off)
        ∧ (∀ d ∈ VN.take (den.len - dropn), d < b)
        ∧ (∀ m, den.len - dropn ≤ m → VN.getD m 0 = 0)
        ∧ b ≤ 2 * VN.getD 0 0 + 1
        ∧ val b (VN.take (den.len - dropn)) = norm * val b den.number
        ∧ den.len - dropn ≤ VN.length := by
      by_cases h1 : norm = 1
      · have hc : ¬(norm ≠ 1) := by simp [h1]
        refine ⟨0 :: (num.number ++ List.replicate (off + 2) 0),
          den.number.drop dropn ++ List.replicate (off + 3) 0,
          ?_, hU_len, hUd, ?_, hVd, hVpad, ?_, ?_, hVlen⟩
        · rw [normalizeStep_eq, hVheadD, hnd2, if_neg hc]
        · rw [hUtake, hUval, h1, Nat.one_mul]
        · rw [hv00]
          have hcontra : ¬(2 * (x0 + 1) ≤ b) := by
            intro hcc
            have h2 : 2 ≤ b / (x0 + 1) :=
              (Nat.le_div_iff_mul_le (by omega)).mpr (by omega)
            rw [hnd2, h1] at h2; omega
          omega
        · rw [hVval, h1, Nat.one_mul]
      · have h2le : 2 ≤ norm := by omega
        have hcnd : norm ≠ 1 := by omega
        -- divisor buffer: carry-free scaling by norm
        have hVsh : shmul ((den.number.drop dropn
            ++ List.replicate (off + 3) 0).take (den.len - dropn)) norm b
            = shmulMSB b norm (x0 :: xs) := by
          rw [hVtake, shmul_of_two_le _ _ _ h2le]
        have hVnoc := shmulMSB_no_overflow b norm x0 xs hb1 hnpos
          (by
            have h4 : norm * (x0 + 1) = norm * x0 + norm := by ring
            have h5 : norm * x0 = x0 * norm := Nat.mul_comm norm x0
            omega)
          (by
            intro d hd
            rcases List.mem_cons.mp hd with rfl | hd'
            · exact hx0_lt
            · exact hxs_lt d hd')
        have hVc0 : (shmul ((den.number.drop dropn
            ++ List.replicate (off + 3) 0).take (den.len - dropn)) norm b).1
            = 0 := by
          rw [hVsh]; exact hVnoc.1
        have hVAt : shmulAt (den.number.drop dropn
            ++ List.replicate (off + 3) 0) 0 (den.len - dropn) norm b
            = (shmulMSB b norm (x0 :: xs)).2
              ++ List.replicate (off + 3) 0 := by
          rw [shmulAt_zero_noCarry _ _ _ _ hVc0, hVsh]
          congr 1
          apply drop_append_left
          rw [List.length_drop]; omega
        have hVN2len : (shmulMSB b norm (x0 :: xs)).2.length
            = den.len - dropn := by
          rw [shmulMSB_length, List.length_cons]; omega
        -- dividend buffer: carry-free scaling by norm
        have hUnoc := shmulMSB_no_overflow b norm 0
          (num.number ++ List.replicate off 0) hb1 hnpos (by omega) hAdig
        have hUc0 : (shmul ((0 :: (num.number
            ++ List.replicate (off + 2) 0)).take (divSu num den scale))
            norm b).1 = 0 := by
          rw [hsu, hUtake, shmul_of_two_le _ _ _ h2le]
          exact hUnoc.1
        have hUAt : shmulAt (0 :: (num.number ++ List.replicate (off + 2) 0))
            0 (divSu num den scale) norm b
            = (shmulMSB b norm (0 :: (num.number ++ List.replicate off 0))).2
              ++ (0 :: (num.number
                  ++ List.replicate (off + 2) 0)).drop (num.len + off + 1) := by
          rw [shmulAt_zero_noCarry _ _ _ _ hUc0, hsu, hUtake,
            shmul_of_two_le _ _ _ h2le]
        have hUN2len : (shmulMSB b norm (0 :: (num.number
            ++ List.replicate off 0))).2.length = num.len + off + 1 := by
          rw [shmulMSB_length, List.length_cons, List.length_append,
            List.length_replicate, hnlen]
        refine ⟨(shmulMSB b norm (0 :: (num.number
              ++ List.replicate off 0))).2
            ++ (0 :: (num.number
              ++ List.replicate (off + 2) 0)).drop (num.len + off + 1),
          (shmulMSB b norm (x0 :: xs)).2 ++ List.replicate (off + 3) 0,
          ?_, ?_, ?_, ?_, ?_, ?_, ?_, ?_, ?_⟩
        · rw [normalizeStep_eq, hVheadD, hnd2, if_pos hcnd, hUAt, hVAt]
        · rw [List.length_append, hUN2len, List.length_drop, hU_len]
          omega
        · intro d hd
          rcases List.mem_append.mp hd with h | h
          · exact shmulMSB_digits_lt b norm hb1 _ d h
          · exact hUd d (List.mem_of_mem_drop h)
        · rw [take_append_left _ _ _ hUN2len]
          have hv := shmulMSB_val b norm
            (0 :: (num.number ++ List.replicate off 0))
          rw [hUnoc.1] at hv
          simp only [Nat.zero_mul, Nat.add_zero] at hv
          rw [hv, hUval]
        · rw [take_append_left _ _ _ hVN2len]
          exact fun d hd => shmulMSB_digits_lt b norm hb1 _ d hd
        · intro m hm
          exact getD_append_pad _ _ _ (by rw [hVN2len]; omega)
        · rw [getD_append_left _ _ _ (by rw [hVN2len]; omega), hVnoc.2]
          have hcomm : norm * x0 = x0 * norm := Nat.mul_comm norm x0
          omega
        · rw [take_append_left _ _ _ hVN2len]
          have hv := shmulMSB_val b norm (x0 :: xs)
          rw [hVnoc.1] at hv
          simp only [Nat.zero_mul, Nat.add_zero] at hv
          rw [hv, hxval]
        · rw [List.length_append, hVN2len]
          omega
    -- expose the loop call
    unfold arb_div_core
    simp only [hz, Bool.false_eq_true, if_false]
    rw [hdropn, hoff, if_neg hoos, hUVeq]
    dsimp only
    obtain ⟨QLP, hQLP⟩ : ∃ t,
        divQuodig (rl num + rr den) (den.len - dropn) scale - scale = t :=
      ⟨_, rfl⟩
    rw [hQLP]
    obtain ⟨j0, hj0⟩ : ∃ t,
        (if den.len - dropn > rl num + rr den
          then den.len - dropn - (rl num + rr den) else 0) = t := ⟨_, rfl⟩
    rw [hj0]
    -- output size bookkeeping
    have hquo : 1 ≤ QLP
        ∧ j0 + (rl num + rr den + scale - (den.len - dropn) + 1)
            = QLP + scale := by
      rw [← hQLP, ← hj0]
      unfold divQuodig
      rw [if_neg hoos]
      by_cases hbig : den.len - dropn > rl num + rr den
      · rw [if_pos hbig, if_pos hbig]
        constructor <;> omega
      · rw [if_neg hbig, if_neg hbig]
        constructor <;> omega
    -- exponent bookkeeping
    have hsumax : rl num + rr den + scale ≤ num.len + off := by
      omega
    obtain ⟨t, ht⟩ : ∃ t', num.len + off - (rl num + rr den + scale) = t' :=
      ⟨_, rfl⟩
    have hmaster : off + rr num = scale + rr den + t := by
      omega
    -- prefix values of the scaled dividend
    have hsu_le_len : num.len + off + 1 ≤ UN.length := by omega
    have hAk : ∀ k, k ≤ num.len + off + 1 →
        val b (UN.take k)
          = norm * (val b num.number * b ^ off)
            / b ^ (num.len + off + 1 - k) := by
      intro k hk
      have h1 := val_take_div b hb1 (UN.take (num.len + off + 1)) k
        (by rw [List.length_take]; omega)
        (fun d hd => hUNd d (List.mem_of_mem_take hd))
      rw [List.take_take, Nat.min_eq_left hk, List.length_take,
        Nat.min_eq_left hsu_le_len, hUNval] at h1
      exact h1
    have hM_lt : norm * (val b num.number * b ^ off)
        < norm * b ^ (num.len + off) := by
      have h0 : val b num.number * b ^ off < b ^ (num.len + off) := by
        rw [← hUval]; exact hUSUlt
      exact (Nat.mul_lt_mul_left hnpos).mpr h0
    -- initial window invariant
    have hinv : val b (UN.take (den.len - dropn + 1))
        < b * (norm * val b den.number) := by
      rw [hAk _ (by omega)]
      apply (Nat.div_lt_iff_lt_mul (Nat.pos_pow_of_pos _ hb1)).mpr
      calc norm * (val b num.number * b ^ off)
          < norm * b ^ (num.len + off) := hM_lt
        _ = norm * (b ^ (den.len - dropn - 1)
              * (b ^ 1 * b ^ (num.len + off + 1 - (den.len - dropn + 1)))) := by
            rw [← pow_add, ← pow_add]
            exact congrArg (fun k => norm * b ^ k) (by omega)
        _ ≤ norm * (val b den.number
              * (b ^ 1 * b ^ (num.len + off + 1 - (den.len - dropn + 1)))) := by
            apply Nat.mul_le_mul_left
            exact Nat.mul_le_mul_right _ hDge
        _ = b * (norm * val b den.number)
              * b ^ (num.len + off + 1 - (den.len - dropn + 1)) := by
            ring
    -- full window bound
    have hAfull_lt : val b (UN.take (rl num + rr den + scale + 1))
        < norm * val b den.number
          * b ^ (rl num + rr den + scale - (den.len - dropn) + 1) := by
      rw [hAk _ (by omega)]
      apply (Nat.div_lt_iff_lt_mul (Nat.pos_pow_of_pos _ hb1)).mpr
      calc norm * (val b num.number * b ^ off)
          < norm * b ^ (num.len + off) := hM_lt
        _ = norm * (b ^ (den.len - dropn - 1)
              * (b ^ (rl num + rr den + scale - (den.len - dropn) + 1)
                * b ^ (num.len + off + 1 - (rl num + rr den + scale + 1)))) := by
            rw [← pow_add, ← pow_add]
            exact congrArg (fun k => norm * b ^ k) (by omega)
        _ ≤ norm * (val b den.number
              * (b ^ (rl num + rr den + scale - (den.len - dropn) + 1)
                * b ^ (num.len + off + 1 - (rl num + rr den + scale + 1)))) := by
            apply Nat.mul_le_mul_left
            exact Nat.mul_le_mul_right _ hDge
        _ = norm * val b den.number
              * b ^ (rl num + rr den + scale - (den.len - dropn) + 1)
              * b ^ (num.len + off + 1 - (rl num + rr den + scale + 1)) := by
            ring
    -- run the quotient-digit loop
    have hloop := divLoop_spec b (den.len - dropn) VN hb (by omega) hVNlen
      hVNd hVNpad hVNhead
      (rl num + rr den + scale - (den.len - dropn) + 1) 0 j0 UN
      (List.replicate (QLP + scale) 0)
      hUNd (by omega)
      (by rw [List.length_replicate]; omega)
      (by
        intro _
        rw [win_zero, hVNval]
        exact hinv)
    have hargeq : den.len - dropn
        + (rl num + rr den + scale - (den.len - dropn) + 1)
        = rl num + rr den + scale + 1 := by omega
    rw [win_zero, hargeq] at hloop
    -- value of the written digits
    have hQdiv : val b (UN.take (rl num + rr den + scale + 1))
        / val b (VN.take (den.len - dropn))
        = val b num.number * b ^ (scale + rr den)
          / (val b den.number * b ^ (rr num)) := by
      rw [hAk _ (by omega), hVNval]
      have hexp1 : num.len + off + 1 - (rl num + rr den + scale + 1) = t := by
        omega
      rw [hexp1, Nat.div_div_eq_div_mul]
      have hre : b ^ t * (norm * val b den.number)
          = norm * (b ^ t * val b den.number) := by ring
      rw [hre, Nat.mul_div_mul_left _ _ hnpos]
      have hbp : 0 < b ^ rr num := Nat.pos_pow_of_pos _ hb1
      have hbt : 0 < b ^ t := Nat.pos_pow_of_pos _ hb1
      calc val b num.number * b ^ off / (b ^ t * val b den.number)
          = val b num.number * b ^ off * b ^ rr num
            / (b ^ t * val b den.number * b ^ rr num) :=
            (Nat.mul_div_mul_right _ _ hbp).symm
        _ = b ^ t * (val b num.number * b ^ (scale + rr den))
            / (b ^ t * (val b den.number * b ^ rr num)) := by
            congr 1
            · rw [Nat.mul_assoc, ← pow_add, hmaster, pow_add]
              ring
            · ring
        _ = val b num.number * b ^ (scale + rr den)
            / (val b den.number * b ^ rr num) :=
            Nat.mul_div_mul_left _ _ hbt
    have hQlt : val b (UN.take (rl num + rr den + scale + 1))
        / val b (VN.take (den.len - dropn))
        < b ^ (rl num + rr den + scale - (den.len - dropn) + 1) := by
      rw [hVNval]
      apply (Nat.div_lt_iff_lt_mul (Nat.mul_pos hnpos hDpos)).mpr
      calc val b (UN.take (rl num + rr den + scale + 1))
          < norm * val b den.number
            * b ^ (rl num + rr den + scale - (den.len - dropn) + 1) :=
            hAfull_lt
        _ = b ^ (rl num + rr den + scale - (den.len - dropn) + 1)
            * (norm * val b den.number) := by ring
    have hQt_lt : val b num.number * b ^ (scale + rr den)
        / (val b den.number * b ^ rr num)
        < b ^ (rl num + rr den + scale - (den.len - dropn) + 1) := by
      rw [← hQdiv]; exact hQlt
    rw [hloop, hQdiv]
    have htk : (List.replicate (QLP + scale) 0).take j0
        = List.replicate j0 0 := by
      simp [List.take_replicate, Nat.min_eq_left (by omega : j0 ≤ QLP + scale)]
    have hdp : (List.replicate (QLP + scale) 0).drop
        (j0 + (rl num + rr den + scale - (den.len - dropn) + 1)) = [] := by
      have h0 := List.drop_length (List.replicate (QLP + scale) 0)
      rw [List.length_replicate] at h0
      rw [hquo.2]
      exact h0
    rw [htk, hdp, List.append_nil]
    refine ⟨_, rfl, ?_, ?_, ?_, rfl, hquo.1⟩
    · show val b (List.replicate j0 0
        ++ toDigits b (rl num + rr den + scale - (den.len - dropn) + 1)
            (val b num.number * b ^ (scale + rr den)
              / (val b den.number * b ^ rr num))) = _
      rw [val_append, val_replicate_zero, Nat.zero_mul, Nat.zero_add,
        val_toDigits b hb1 _ _ hQt_lt]
    · show (List.replicate j0 0 ++ toDigits b _ _).length = QLP + scale
      rw [List.length_append, List.length_replicate, toDigits_length]
      omega
    · show ∀ d ∈ List.replicate j0 0 ++ toDigits b _ _, d < b
      intro d hd
      rcases List.mem_append.mp hd with h | h
      · have := List.eq_of_mem_replicate h; omega
      · exact toDigits_lt b _ _ hb1 hQt_lt d h

/-! ### The claims -/

/-- C1: for every dividend N and non-zero divisor D, base b and scale s,
the quotient returned by divide satisfies the reconstruction identity:
q*D plus the true remainder equals N to within one unit in the last
requested fractional digit (truncation).  Scaled to integers: with
Q the quotient digit value, Q*(D*b^rrN) ≤ N*b^(s+rrD) < (Q+1)*(D*b^rrN),
and the quotient carries exactly s fractional digits. -/
theorem claim_C1 (num den : fxdpnt) (b scale : ℕ)
    (hb : 2 ≤ b)
    (hnlen : num.number.length = num.len)
    (hnlp : num.lp ≤ num.len)
    (hnd : ∀ d ∈ num.number, d < b)
    (hdlen : den.number.length = den.len)
    (hdlp : den.lp ≤ den.len)
    (hdd : ∀ d ∈ den.number, d < b)
    (hdnz : val b den.number ≠ 0) :
    ∃ q, arb_div_inter num den b scale = Except.ok q
      ∧ val b q.number * (val b den.number * b ^ rr num)
          ≤ val b num.number * b ^ (scale + rr den)
      ∧ val b num.number * b ^ (scale + rr den)
          < (val b q.number + 1) * (val b den.number * b ^ rr num)
      ∧ q.len - q.lp = scale := by
  obtain ⟨q0, hok, hval, hlen0, hdig0, hshape, hlp0⟩ :=
    arb_div_core_spec num den b scale hb hnlen hnlp hnd hdlen hdlp hdd hdnz
  have hrlz := remove_leading_zeros_spec b q0 hlen0 (by omega)
  have hB : 0 < val b den.number * b ^ rr num :=
    Nat.mul_pos (Nat.one_le_iff_ne_zero.mpr hdnz)
      (Nat.pos_pow_of_pos _ (by omega))
  refine ⟨remove_leading_zeros q0, ?_, ?_, ?_, ?_⟩
  · unfold arb_div_inter
    rw [hok]
    rfl
  · rw [hrlz.1, hval]
    exact Nat.div_mul_le_self _ _
  · rw [hrlz.1, hval]
    have h1 := Nat.div_add_mod
      (val b num.number * b ^ (scale + rr den))
      (val b den.number * b ^ rr num)
    have h2 := Nat.mod_lt
      (val b num.number * b ^ (scale + rr den)) hB
    obtain ⟨Q, hQ⟩ : ∃ t,
        val b num.number * b ^ (scale + rr den)
          / (val b den.number * b ^ rr num) = t := ⟨_, rfl⟩
    rw [hQ] at h1 ⊢
    have h3 : (Q + 1) * (val b den.number * b ^ rr num)
        = val b den.number * b ^ rr num * Q
          + val b den.number * b ^ rr num := by ring
    omega
  · have h4 := hrlz.2.2.2.1
    omega

theorem claim_C1_witness :
    ∃ q, arb_div_inter ⟨[1], 1, 1⟩ ⟨[3], 1, 1⟩ 10 2 = Except.ok q
      ∧ val 10 q.number
          * (val 10 (⟨[3], 1, 1⟩ : fxdpnt).number
            * 10 ^ rr ⟨[1], 1, 1⟩)
          ≤ val 10 (⟨[1], 1, 1⟩ : fxdpnt).number
            * 10 ^ (2 + rr ⟨[3], 1, 1⟩)
      ∧ val 10 (⟨[1], 1, 1⟩ : fxdpnt).number * 10 ^ (2 + rr ⟨[3], 1, 1⟩)
          < (val 10 q.number + 1)
            * (val 10 (⟨[3], 1, 1⟩ : fxdpnt).number * 10 ^ rr ⟨[1], 1, 1⟩)
      ∧ q.len - q.lp = 2 :=
  claim_C1 ⟨[1], 1, 1⟩ ⟨[3], 1, 1⟩ 10 2 (by decide) (by decide) (by decide)
    (by decide) (by decide) (by decide) (by decide) (by decide)

/-- C2: a divisor whose digits are all zero yields the reportable
DivisionByZero error before any buffer work.  This is the spec's
required behavior; the C source instead calls arb_error, which
terminates the process (its own TODO says this exit is to be
removed), so the code does not honor this claim. -/
theorem claim_C2 (num den : fxdpnt) (b scale : ℕ)
    (hz : iszero den = true) :
    arb_div_inter num den b scale = Except.error ArbError.divisionByZero := by
  unfold arb_div_inter arb_div_core
  rw [hz]
  rfl

theorem claim_C2_witness :
    arb_div_inter ⟨[1], 1, 1⟩ ⟨[0, 0], 2, 2⟩ 10 3
      = Except.error ArbError.divisionByZero :=
  claim_C2 ⟨[1], 1, 1⟩ ⟨[0, 0], 2, 2⟩ 10 3 (by decide)

/-- C3 (corrected): with lea = rl(num) + rr(den) and leb the stripped
divisor width, the early-out fires exactly when leb > lea + scale and
then the quotient value is zero; the digit count actually produced is
divQuodig lea leb scale — which is scale + 1 (not lea - leb + scale + 1)
whenever lea < leb ≤ lea + scale — and the integer-part length is that
count minus scale. -/
theorem claim_C3 (num den : fxdpnt) (b scale : ℕ)
    (hz : iszero den = false) :
    ∃ q, arb_div_core num den b scale = Except.ok q
      ∧ q.len = divQuodig (rl num + rr den)
          (den.len - leadZeros den.number) scale
      ∧ q.lp = divQuodig (rl num + rr den)
          (den.len - leadZeros den.number) scale - scale
      ∧ (den.len - leadZeros den.number > rl num + rr den + scale →
          val b q.number = 0) := by
  have hq_ge : scale + 1
      ≤ divQuodig (rl num + rr den) (den.len - leadZeros den.number) scale := by
    unfold divQuodig
    split
    · omega
    · split <;> omega
  unfold arb_div_core
  simp only [hz, Bool.false_eq_true, if_false]
  by_cases hoos : den.len - leadZeros den.number > rl num + rr den + scale
  · rw [if_pos hoos]
    refine ⟨_, rfl, ?_, rfl, fun _ => val_replicate_zero b _⟩
    show divQuodig (rl num + rr den) (den.len - leadZeros den.number) scale
        - scale + scale = _
    omega
  · rw [if_neg hoos]
    refine ⟨_, rfl, ?_, rfl, fun hcon => absurd hcon hoos⟩
    show divQuodig (rl num + rr den) (den.len - leadZeros den.number) scale
        - scale + scale = _
    omega

theorem claim_C3_witness :
    ∃ q, arb_div_core ⟨[1], 1, 1⟩ ⟨[2, 0], 2, 2⟩ 10 2 = Except.ok q
      ∧ q.len = divQuodig (rl ⟨[1], 1, 1⟩ + rr ⟨[2, 0], 2, 2⟩)
          ((2 : ℕ) - leadZeros [2, 0]) 2
      ∧ q.lp = divQuodig (rl ⟨[1], 1, 1⟩ + rr ⟨[2, 0], 2, 2⟩)
          ((2 : ℕ) - leadZeros [2, 0]) 2 - 2
      ∧ ((2 : ℕ) - leadZeros [2, 0]
            > rl ⟨[1], 1, 1⟩ + rr ⟨[2, 0], 2, 2⟩ + 2 →
          val 10 q.number = 0) :=
  claim_C3 ⟨[1], 1, 1⟩ ⟨[2, 0], 2, 2⟩ 10 2 (by decide)

theorem claim_C3_counterexample :
    arb_div_core ⟨[1], 1, 1⟩ ⟨[2, 0], 2, 2⟩ 10 2
      = Except.ok ⟨[0, 0, 5], 1, 3⟩
    ∧ ¬(((⟨[0, 0, 5], 1, 3⟩ : fxdpnt).len : ℤ)
        = ((rl ⟨[1], 1, 1⟩ + rr ⟨[2, 0], 2, 2⟩ : ℕ) : ℤ)
          - (((⟨[2, 0], 2, 2⟩ : fxdpnt).len - leadZeros [2, 0] : ℕ) : ℤ)
          + 2 + 1) :=
  ⟨rfl, by decide⟩

/-- C4 (corrected): for base 10, dividend 0.01, divisor 100, scale 5
the quotient is 0.00010 — not zero — and the zero-result early-out
does not fire (divisor width 3 is not greater than 1 + 5), so the
quotient-digit loop runs. -/
theorem claim_C4 :
    arb_div_inter ⟨[0, 0, 1], 1, 3⟩ ⟨[1, 0, 0], 3, 3⟩ 10 5
      = Except.ok ⟨[0, 0, 0, 0, 1, 0], 1, 6⟩
    ∧ val 10 [0, 0, 0, 0, 1, 0] ≠ 0
    ∧ ¬(((⟨[1, 0, 0], 3, 3⟩ : fxdpnt).len : ℕ) - leadZeros [1, 0, 0]
        > rl ⟨[0, 0, 1], 1, 3⟩ + rr ⟨[1, 0, 0], 3, 3⟩ + 5) := by
  refine ⟨rfl, ?_, ?_⟩ <;> decide

theorem claim_C4_counterexample :
    ∃ q, arb_div_inter ⟨[0, 0, 1], 1, 3⟩ ⟨[1, 0, 0], 3, 3⟩ 10 5
        = Except.ok q
      ∧ val 10 q.number ≠ 0 :=
  ⟨⟨[0, 0, 0, 0, 1, 0], 1, 6⟩, rfl, by decide⟩

/-- C5: in every division that reaches the main loop, the normalization
factor is norm = b div (leading divisor digit + 1); when norm is not 1
both working buffers are scaled by norm with the single-digit multiply,
and afterwards the working divisor's leading digit is at least b / 2
(its value having been multiplied by norm). -/
theorem claim_C5 (b su sv : ℕ) (u v : List ℕ) (x0 : ℕ) (xs : List ℕ)
    (hb : 2 ≤ b) (hsv1 : 1 ≤ sv) (hsvlen : sv ≤ v.length)
    (hx : v.take sv = x0 :: xs) (hx0 : 1 ≤ x0) (hx0b : x0 < b)
    (hxs : ∀ d ∈ xs, d < b) :
    normalizeStep b su sv u v
      = (if b / (v.headD 0 + 1) ≠ 1
          then (shmulAt u 0 su (b / (v.headD 0 + 1)) b,
                shmulAt v 0 sv (b / (v.headD 0 + 1)) b)
          else (u, v))
    ∧ b / 2 ≤ (normalizeStep b su sv u v).2.getD 0 0
    ∧ val b ((normalizeStep b su sv u v).2.take sv)
        = b / (x0 + 1) * val b (v.take sv) := by
  have hvheadD : v.headD 0 = x0 := by
    cases v with
    | nil => simp at hsvlen; omega
    | cons a l =>
      cases sv with
      | zero => omega
      | succ k =>
        simp only [List.take_succ_cons, List.cons.injEq] at hx
        exact hx.1
  have hv00 : v.getD 0 0 = x0 := by rw [← headD_eq_getD, hvheadD]
  obtain ⟨norm, hnd2⟩ : ∃ t, b / (x0 + 1) = t := ⟨_, rfl⟩
  have hnpos : 1 ≤ norm := by
    rw [← hnd2, Nat.le_div_iff_mul_le (by omega : 0 < x0 + 1)]; omega
  have hnmul : norm * (x0 + 1) ≤ b := by
    rw [← hnd2]; exact Nat.div_mul_le_self b (x0 + 1)
  have hnormhalf : b ≤ 2 * (norm * x0) + 1 := by
    have h1 := norm_half b x0 hb hx0 hx0b
    rwa [hnd2] at h1
  have hns_eq := normalizeStep_eq b su sv u v
  rw [hnd2]
  by_cases h1 : norm = 1
  · have hc : ¬(b / (v.headD 0 + 1) ≠ 1) := by
      rw [hvheadD, hnd2]; simp [h1]
    have hres : normalizeStep b su sv u v = (u, v) := by
      rw [hns_eq, if_neg hc]
    refine ⟨by rw [hres, if_neg hc], ?_, ?_⟩
    · rw [hres]
      dsimp only
      rw [hv00]
      have hcontra : ¬(2 * (x0 + 1) ≤ b) := by
        intro hcc
        have h2 : 2 ≤ b / (x0 + 1) :=
          (Nat.le_div_iff_mul_le (by omega)).mpr (by omega)
        rw [hnd2, h1] at h2
        omega
      omega
    · rw [hres, h1, Nat.one_mul]
  · have hcnd : b / (v.headD 0 + 1) ≠ 1 := by
      rw [hvheadD, hnd2]; exact h1
    have h2le : 2 ≤ norm := by omega
    have hres : normalizeStep b su sv u v
        = (shmulAt u 0 su (b / (v.headD 0 + 1)) b,
            shmulAt v 0 sv (b / (v.headD 0 + 1)) b) := by
      rw [hns_eq, if_pos hcnd]
    have hVsh : shmul (v.take sv) (b / (v.headD 0 + 1)) b
        = shmulMSB b norm (x0 :: xs) := by
      rw [hx, hvheadD, hnd2, shmul_of_two_le _ _ _ h2le]
    have hVnoc := shmulMSB_no_overflow b norm x0 xs (by omega) hnpos
      (by
        have h4 : norm * (x0 + 1) = norm * x0 + norm := by ring
        have h5 : norm * x0 = x0 * norm := Nat.mul_comm norm x0
        omega)
      (by
        intro d hd
        rcases List.mem_cons.mp hd with rfl | hd'
        · exact hx0b
        · exact hxs d hd')
    have hVAt : shmulAt v 0 sv (b / (v.headD 0 + 1)) b
        = (shmulMSB b norm (x0 :: xs)).2 ++ v.drop sv := by
      rw [shmulAt_zero_noCarry _ _ _ _ (by rw [hVsh]; exact hVnoc.1), hVsh]
    have hlen2 : (shmulMSB b norm (x0 :: xs)).2.length = sv := by
      rw [shmulMSB_length, ← hx, List.length_take]
      omega
    refine ⟨by rw [hres, if_pos hcnd], ?_, ?_⟩
    · rw [hres]
      dsimp only
      rw [hVAt, getD_append_left _ _ _ (by rw [hlen2]; omega), hVnoc.2]
      have hcomm : norm * x0 = x0 * norm := Nat.mul_comm norm x0
      omega
    · rw [hres]
      dsimp only
      rw [hVAt, take_append_left _ _ _ hlen2]
      have hv := shmulMSB_val b norm (x0 :: xs)
      rw [hVnoc.1] at hv
      simp only [Nat.zero_mul, Nat.add_zero] at hv
      rw [hv, hx]

theorem claim_C5_witness :
    normalizeStep 10 3 2 [0, 5, 0] [3, 1, 0]
      = (if 10 / (([3, 1, 0] : List ℕ).headD 0 + 1) ≠ 1
          then (shmulAt [0, 5, 0] 0 3 (10 / (([3, 1, 0] : List ℕ).headD 0 + 1)) 10,
                shmulAt [3, 1, 0] 0 2 (10 / (([3, 1, 0] : List ℕ).headD 0 + 1)) 10)
          else ([0, 5, 0], [3, 1, 0]))
    ∧ 10 / 2 ≤ (normalizeStep 10 3 2 [0, 5, 0] [3, 1, 0]).2.getD 0 0
    ∧ val 10 ((normalizeStep 10 3 2 [0, 5, 0] [3, 1, 0]).2.take 2)
        = 10 / (3 + 1) * val 10 (([3, 1, 0] : List ℕ).take 2) :=
  claim_C5 10 3 2 [0, 5, 0] [3, 1, 0] 3 [1] (by decide) (by decide)
    (by decide) (by decide) (by decide) (by decide) (by decide)

/-- C6: the trial digit is b - 1 when the window digit equals the
divisor's leading digit and the two-by-one estimate otherwise; the
refinement against the second divisor digit decrements it at most
twice; and under the normalization invariant the refined digit
brackets the true quotient digit: U/V ≤ qg ≤ U/V + 1. -/
theorem claim_C6 (b u0 u1 u2 v0 v1 U V Ul Vl P : ℕ)
    (hb : 2 ≤ b) (hu1 : u1 < b) (hu2 : u2 < b) (hv0 : 1 ≤ v0) (hv1 : v1 < b)
    (hP : 0 < P) (hnorm : b ≤ 2 * v0 + 1)
    (hU : U = ((u0 * b + u1) * b + u2) * P + Ul) (hUl : Ul < P)
    (hV : V = (v0 * b + v1) * P + Vl) (hVl : Vl < P)
    (hUbV : U < b * V) :
    trialGuess b v0 u0 u1
        = (if v0 ≠ u0 then (u0 * b + u1) / v0 else b - 1)
    ∧ trialGuess b v0 u0 u1 - 2 ≤ refineGuess b v0 v1 u0 u1 u2
    ∧ refineGuess b v0 v1 u0 u1 u2 ≤ trialGuess b v0 u0 u1
    ∧ U / V ≤ refineGuess b v0 v1 u0 u1 u2
    ∧ refineGuess b v0 v1 u0 u1 u2 ≤ U / V + 1 := by
  have hbounds := refineGuess_bounds b u0 u1 u2 v0 v1 U V Ul Vl P hb hu1 hu2
    hv0 hv1 hP hnorm hU hUl hV hVl hUbV
  refine ⟨rfl, ?_, refineGuess_le_trial b v0 v1 u0 u1 u2,
    hbounds.1, hbounds.2⟩
  have hrw : refineGuess b v0 v1 u0 u1 u2 =
      if overTest b v0 v1 u0 u1 u2 (trialGuess b v0 u0 u1) then
        if overTest b v0 v1 u0 u1 u2 (trialGuess b v0 u0 u1 - 1) then
          trialGuess b v0 u0 u1 - 1 - 1
        else trialGuess b v0 u0 u1 - 1
      else trialGuess b v0 u0 u1 := rfl
  rw [hrw]
  split
  · split <;> omega
  · omega

theorem claim_C6_witness :
    trialGuess 10 5 1 0 = (if (5 : ℕ) ≠ 1 then (1 * 10 + 0) / 5 else 10 - 1)
    ∧ trialGuess 10 5 1 0 - 2 ≤ refineGuess 10 5 0 1 0 0
    ∧ refineGuess 10 5 0 1 0 0 ≤ trialGuess 10 5 1 0
    ∧ 100 / 50 ≤ refineGuess 10 5 0 1 0 0
    ∧ refineGuess 10 5 0 1 0 0 ≤ 100 / 50 + 1 :=
  claim_C6 10 1 0 0 5 0 100 50 0 0 1 (by decide) (by decide) (by decide)
    (by decide) (by decide) (by decide) (by decide) (by decide) (by decide)
    (by decide) (by decide) (by decide)

/-- C7: in a loop iteration whose multiply-and-subtract borrows, the
engine decrements the trial digit — the borrow certifies the guess was
exactly one too high — adds the unscaled divisor back into the same
window, which restores the window to the true remainder, and nothing
to the right of the window is touched. -/
theorem claim_C7 (b leb : ℕ) (v u : List ℕ) (i qg : ℕ)
    (hb : 2 ≤ b) (hleb : 1 ≤ leb) (hvlen : leb ≤ v.length)
    (hvd : ∀ d ∈ v.take leb, d < b)
    (hVpos : 1 ≤ val b (v.take leb))
    (hud : ∀ d ∈ u, d < b)
    (hwlen : leb + i < u.length)
    (hq1 : val b (win u i (leb + 1)) / val b (v.take leb) ≤ qg)
    (hq2 : qg ≤ val b (win u i (leb + 1)) / val b (v.take leb) + 1)
    (hqb : qg < b) (hq0 : qg ≠ 0)
    (hborrow : (windowSub b u (leb + i)
        (arb_mul_core b (v.take leb) qg)).2 ≠ 0) :
    (mulSubStep b leb v u i qg).2 = qg - 1
    ∧ qg = val b (win u i (leb + 1)) / val b (v.take leb) + 1
    ∧ val b (win (mulSubStep b leb v u i qg).1 (i + 1) leb)
        = val b (win u i (leb + 1)) % val b (v.take leb)
    ∧ (mulSubStep b leb v u i qg).1.drop (leb + i + 1)
        = u.drop (leb + i + 1) := by
  have hspec := mulSubStep_spec b leb v u i qg hb hleb hvlen hvd hVpos hud
    hwlen hq1 hq2 hqb
  have hrw : mulSubStep b leb v u i qg
      = if qg ≠ 0 then
          (if (windowSub b u (leb + i)
              (arb_mul_core b (v.take leb) qg)).2 = 0 then
            ((windowSub b u (leb + i) (arb_mul_core b (v.take leb) qg)).1, qg)
          else
            (if (windowAdd b (windowSub b u (leb + i)
                  (arb_mul_core b (v.take leb) qg)).1 (leb + i)
                  (v.take leb)).2 ≠ 0 then
              (windowAdd b (windowSub b u (leb + i)
                (arb_mul_core b (v.take leb) qg)).1 (leb + i)
                (v.take leb)).1.set 0 0
            else
              (windowAdd b (windowSub b u (leb + i)
                (arb_mul_core b (v.take leb) qg)).1 (leb + i)
                (v.take leb)).1, qg - 1))
        else (u, qg) := rfl
  have hdig : (mulSubStep b leb v u i qg).2 = qg - 1 := by
    rw [hrw, if_pos hq0, if_neg hborrow]
  refine ⟨hdig, ?_, hspec.2.2.2.1, hspec.2.2.2.2⟩
  have h1 := hspec.1
  rw [hdig] at h1
  omega

theorem claim_C7_witness :
    (mulSubStep 10 1 [5] [1, 0] 0 3).2 = 3 - 1
    ∧ (3 : ℕ) = val 10 (win [1, 0] 0 (1 + 1)) / val 10 (([5] : List ℕ).take 1) + 1
    ∧ val 10 (win (mulSubStep 10 1 [5] [1, 0] 0 3).1 (0 + 1) 1)
        = val 10 (win [1, 0] 0 (1 + 1)) % val 10 (([5] : List ℕ).take 1)
    ∧ (mulSubStep 10 1 [5] [1, 0] 0 3).1.drop (1 + 0 + 1)
        = ([1, 0] : List ℕ).drop (1 + 0 + 1) :=
  claim_C7 10 1 [5] [1, 0] 0 3 (by decide) (by decide) (by decide)
    (by decide) (by decide) (by decide) (by decide) (by decide) (by decide)
    (by decide) (by decide) (by decide)

/-- C8: the quotient returned by divide satisfies the library's number
invariant: every digit lies in [0, b), the integer-part count is
between 0 and the total length, the digit buffer's length is the
recorded length, and leading zero digits beyond the first integer
digit have been removed. -/
theorem claim_C8 (num den : fxdpnt) (b scale : ℕ)
    (hb : 2 ≤ b)
    (hnlen : num.number.length = num.len)
    (hnlp : num.lp ≤ num.len)
    (hnd : ∀ d ∈ num.number, d < b)
    (hdlen : den.number.length = den.len)
    (hdlp : den.lp ≤ den.len)
    (hdd : ∀ d ∈ den.number, d < b)
    (hdnz : val b den.number ≠ 0) :
    ∃ q, arb_div_inter num den b scale = Except.ok q
      ∧ (∀ d ∈ q.number, d < b)
      ∧ q.lp ≤ q.len
      ∧ q.number.length = q.len
      ∧ (q.lp ≤ 1 ∨ q.number.getD 0 0 ≠ 0) := by
  obtain ⟨q0, hok, hval, hlen0, hdig0, hshape, hlp0⟩ :=
    arb_div_core_spec num den b scale hb hnlen hnlp hnd hdlen hdlp hdd hdnz
  have hrlz := remove_leading_zeros_spec b q0 hlen0 (by omega)
  refine ⟨remove_leading_zeros q0, ?_, ?_, hrlz.2.2.1, hrlz.2.1,
    hrlz.2.2.2.2.2.2⟩
  · unfold arb_div_inter
    rw [hok]
    rfl
  · intro d hd
    exact hdig0 d (hrlz.2.2.2.2.2.1 d hd)

theorem claim_C8_witness :
    ∃ q, arb_div_inter ⟨[7], 1, 1⟩ ⟨[2], 1, 1⟩ 10 3 = Except.ok q
      ∧ (∀ d ∈ q.number, d < 10)
      ∧ q.lp ≤ q.len
      ∧ q.number.length = q.len
      ∧ (q.lp ≤ 1 ∨ q.number.getD 0 0 ≠ 0) :=
  claim_C8 ⟨[7], 1, 1⟩ ⟨[2], 1, 1⟩ 10 3 (by decide) (by decide) (by decide)
    (by decide) (by decide) (by decide) (by decide) (by decide)

/-- C9: the single-digit multiply shmul zero-fills the destination
when the digit is 0, copies the source when it is 1, and otherwise
scans least-significant to most-significant with value = src*digit +
carry, store mod b, carry div b (so digits + final carry represent
digit times the source value, all digits below b); a nonzero final
carry is written one position to the left of the destination's
most-significant input slot. -/
theorem claim_C9 (num : List ℕ) (d b : ℕ) (hb : 2 ≤ b)
    (hnd : ∀ x ∈ num, x < b) :
    shmul num 0 b = (0, List.replicate num.length 0)
    ∧ shmul num 1 b = (0, num)
    ∧ (2 ≤ d →
        shmul num d b = shmulMSB b d num
        ∧ val b (shmul num d b).2 + (shmul num d b).1 * b ^ num.length
            = d * val b num
        ∧ ∀ y ∈ (shmul num d b).2, y < b)
    ∧ ∀ (dst : List ℕ) (p size : ℕ),
        (shmul ((dst.drop p).take size) d b).1 ≠ 0 →
        shmulAt dst p size d b
          = (dst.take p ++ (shmul ((dst.drop p).take size) d b).2
              ++ dst.drop (p + size)).set (p - 1)
              (shmul ((dst.drop p).take size) d b).1 := by
  refine ⟨?_, ?_, ?_, ?_⟩
  · unfold shmul
    rw [if_pos rfl]
  · unfold shmul
    rw [if_neg (by omega), if_pos rfl]
  · intro h2
    have he : shmul num d b = shmulMSB b d num := shmul_of_two_le num d b h2
    refine ⟨he, ?_, ?_⟩
    · rw [he]
      exact shmulMSB_val b d num
    · rw [he]
      exact shmulMSB_digits_lt b d (by omega) num
  · intro dst p size hcar
    have hrw : shmulAt dst p size d b
        = if (shmul ((dst.drop p).take size) d b).1 ≠ 0 then
            (dst.take p ++ (shmul ((dst.drop p).take size) d b).2
              ++ dst.drop (p + size)).set (p - 1)
              (shmul ((dst.drop p).take size) d b).1
          else dst.take p ++ (shmul ((dst.drop p).take size) d b).2
              ++ dst.drop (p + size) := rfl
    rw [hrw, if_pos hcar]

theorem claim_C9_witness :
    shmul [7, 8] 0 10 = (0, List.replicate ([7, 8] : List ℕ).length 0)
    ∧ shmul [7, 8] 1 10 = (0, [7, 8])
    ∧ (2 ≤ 9 →
        shmul [7, 8] 9 10 = shmulMSB 10 9 [7, 8]
        ∧ val 10 (shmul [7, 8] 9 10).2
            + (shmul [7, 8] 9 10).1 * 10 ^ ([7, 8] : List ℕ).length
            = 9 * val 10 [7, 8]
        ∧ ∀ y ∈ (shmul [7, 8] 9 10).2, y < 10)
    ∧ ∀ (dst : List ℕ) (p size : ℕ),
        (shmul ((dst.drop p).take size) 9 10).1 ≠ 0 →
        shmulAt dst p size 9 10
          = (dst.take p ++ (shmul ((dst.drop p).take size) 9 10).2
              ++ dst.drop (p + size)).set (p - 1)
              (shmul ((dst.drop p).take size) 9 10).1 :=
  claim_C9 [7, 8] 9 10 (by decide) (by decide)

/-- C10 (implicit): the ranged subtract and ranged add are inverse on
their window: subtracting a digit sequence v from the window of u
ending at index e and then adding v back restores u exactly, the
add's carry-out equals the subtract's borrow-out, and neither
operation touches a digit outside the window. -/
theorem claim_C10 (b : ℕ) (u : List ℕ) (e : ℕ) (v : List ℕ)
    (hv : v.length ≤ e + 1) (he : e < u.length)
    (hud : ∀ x ∈ u, x < b) (hvd : ∀ y ∈ v, y < b) :
    (windowAdd b (windowSub b u e v).1 e v).1 = u
    ∧ (windowAdd b (windowSub b u e v).1 e v).2 = (windowSub b u e v).2
    ∧ (windowSub b u e v).1.take (e + 1 - v.length)
        = u.take (e + 1 - v.length)
    ∧ (windowSub b u e v).1.drop (e + 1) = u.drop (e + 1)
    ∧ (windowAdd b (windowSub b u e v).1 e v).1.take (e + 1 - v.length)
        = (windowSub b u e v).1.take (e + 1 - v.length)
    ∧ (windowAdd b (windowSub b u e v).1 e v).1.drop (e + 1)
        = (windowSub b u e v).1.drop (e + 1) := by
  have hwl : (win u (e + 1 - v.length) v.length).length = v.length :=
    win_length u _ _ (by omega)
  have hsubwin := windowSub_win b u e v hv he
  have hadd := addDigits_subDigits b (win u (e + 1 - v.length) v.length) v
    hwl (fun x hx => hud x (mem_win u _ _ x hx)) hvd
  have hsl : (windowSub b u e v).1.length = u.length :=
    windowSub_length b u e v hv he
  have hrw : windowAdd b (windowSub b u e v).1 e v
      = ((windowSub b u e v).1.take (e + 1 - v.length)
          ++ (addDigits b
              (((windowSub b u e v).1.drop (e + 1 - v.length)).take v.length)
              v).1
          ++ (windowSub b u e v).1.drop (e + 1),
        (addDigits b
          (((windowSub b u e v).1.drop (e + 1 - v.length)).take v.length)
          v).2) := rfl
  have hw2 : ((windowSub b u e v).1.drop (e + 1 - v.length)).take v.length
      = (subDigits b (win u (e + 1 - v.length) v.length) v).1 := hsubwin
  have hfst : (addDigits b
      (((windowSub b u e v).1.drop (e + 1 - v.length)).take v.length) v).1
      = win u (e + 1 - v.length) v.length := by
    rw [hw2, hadd]
  have hsnd : (addDigits b
      (((windowSub b u e v).1.drop (e + 1 - v.length)).take v.length) v).2
      = (subDigits b (win u (e + 1 - v.length) v.length) v).2 := by
    rw [hw2, hadd]
  refine ⟨?_, ?_, windowSub_take b u e v hv he, windowSub_drop b u e v hv he,
    ?_, ?_⟩
  · rw [hrw]
    dsimp only
    rw [hfst, windowSub_take b u e v hv he, windowSub_drop b u e v hv he]
    have hsplit : u.take (e + 1 - v.length)
        ++ win u (e + 1 - v.length) v.length = u.take (e + 1) := by
      rw [show win u (e + 1 - v.length) v.length
          = (u.drop (e + 1 - v.length)).take v.length from rfl,
        ← List.take_add,
        show e + 1 - v.length + v.length = e + 1 from by omega]
    rw [hsplit, List.take_append_drop]
  · rw [hrw]
    dsimp only
    rw [hsnd]
    rfl
  · rw [hrw]
    dsimp only
    rw [List.append_assoc]
    exact take_append_left _ _ _ (by rw [List.length_take]; omega)
  · rw [hrw]
    dsimp only
    apply drop_append_left
    rw [List.length_append, List.length_take, addDigits_length]
    · rw [List.length_take, List.length_drop, hsl]
      omega
    · rw [List.length_take, List.length_drop, hsl]
      omega

theorem claim_C10_witness :
    (windowAdd 10 (windowSub 10 [4, 7, 2, 9] 2 [8, 5]).1 2 [8, 5]).1
        = [4, 7, 2, 9]
    ∧ (windowAdd 10 (windowSub 10 [4, 7, 2, 9] 2 [8, 5]).1 2 [8, 5]).2
        = (windowSub 10 [4, 7, 2, 9] 2 [8, 5]).2
    ∧ (windowSub 10 [4, 7, 2, 9] 2 [8, 5]).1.take (2 + 1 - 2)
        = ([4, 7, 2, 9] : List ℕ).take (2 + 1 - 2)
    ∧ (windowSub 10 [4, 7, 2, 9] 2 [8, 5]).1.drop (2 + 1)
        = ([4, 7, 2, 9] : List ℕ).drop (2 + 1)
    ∧ (windowAdd 10 (windowSub 10 [4, 7, 2, 9] 2 [8, 5]).1 2 [8, 5]).1.take
          (2 + 1 - 2)
        = (windowSub 10 [4, 7, 2, 9] 2 [8, 5]).1.take (2 + 1 - 2)
    ∧ (windowAdd 10 (windowSub 10 [4, 7, 2, 9] 2 [8, 5]).1 2 [8, 5]).1.drop
          (2 + 1)
        = (windowSub 10 [4, 7, 2, 9] 2 [8, 5]).1.drop (2 + 1) := by
  have h := claim_C10 10 [4, 7, 2, 9] 2 [8, 5] (by decide) (by decide)
    (by decide) (by decide)
  exact h

end Arb
